import Mathlib

/-!
Verification development for the resumable zip extraction engine
(`vendor/github.com/itchio/savior/zipextractor/zipextractor.go`).

The zip driver (`ZipExtractor.Resume`, `zipFileEntry`, `FlateThreshold`) is
translated directly from the Go source.  The generic savior collaborators it
drives (Source, Sink, Copier, SaveConsumer) are not part of the repository
snapshot, so they are modelled from the specification's interface contracts
(sections 4.1-4.3): a Source produces the entry's uncompressed byte stream
sequentially and resumes at the produced offset recorded in a
SourceCheckpoint; a Sink is a path-indexed file store with an event trace;
the Copier moves bytes in chunks, and at source-chosen safe points offers the
current checkpoint to the SaveConsumer, whose verdict may stop the copy at
that point.  Go's `float64` progress arithmetic is modelled by exact
rationals; machine integers carry no overflow here (sizes and offsets are
non-negative and bounded by list lengths), so they are modelled by `Nat`
(`int64` fields that can be negative, like the flate threshold, by `Int`).

A run of the copier is determinized by a `plan`: a list, per entry, of copy
events.  `CopyEvent.chunk n` is a read/write of (up to) `n` bytes;
`CopyEvent.save lag stop` is a source-chosen safe point, offering a
checkpoint whose produced offset trails the bytes produced so far by `lag`
(a streaming decompressor can only checkpoint at its latest block boundary,
which is at or before the produced offset; `none` offers a nil source
checkpoint), together with the SaveConsumer's verdict for that offer.
After the plan is exhausted the copy runs to the end of the entry's data,
mirroring the copier's loop-until-EOF behaviour.
-/

set_option maxHeartbeats 1000000

abbrev Byte := Nat

inductive EntryKind
  | dir
  | symlink
  | file
deriving DecidableEq, Repr

/-- savior.Entry, as used by the zip driver. -/
structure Entry where
  kind : EntryKind
  canonicalPath : String
  compressedSize : Nat
  uncompressedSize : Nat
  mode : Nat
  writeOffset : Nat
deriving DecidableEq, Repr

/-- Zip storage methods: Store, Deflate, or anything else (e.g. LZMA). -/
inductive ZipMethod
  | store
  | deflate
  | other
deriving DecidableEq, Repr

/-- One member of the zip central directory (`zip.File`).  `data` is the
entry's uncompressed payload (for a symlink, the link target bytes); its
length is the member's `UncompressedSize64`. -/
structure ZipFile where
  name : String
  method : ZipMethod
  mode : Nat
  data : List Byte
  compressedSize : Nat
deriving DecidableEq, Repr

def ZipFile.size (zf : ZipFile) : Nat := zf.data.length

/-- Go `os.ModeDir` is bit 31 of a `FileMode`. -/
def modeDirBit : Nat := 31

/-- Go `os.ModeSymlink` is bit 27 of a `FileMode`. -/
def modeSymlinkBit : Nat := 27

/-- Translation of `zipFileEntry` (zipextractor.go:309-327). -/
def zipFileEntry (zf : ZipFile) : Entry :=
  { kind :=
      if zf.mode.testBit modeDirBit then EntryKind.dir
      else if zf.mode.testBit modeSymlinkBit then EntryKind.symlink
      else EntryKind.file
    canonicalPath := zf.name
    compressedSize := zf.compressedSize
    uncompressedSize := zf.data.length
    mode := zf.mode
    writeOffset := 0 }

/-- Modelled from the spec: a SourceCheckpoint records the produced offset
the Source will resume from (section 3; for the raw strategy it is just a
byte offset, for the decompressing strategy it is the offset of the block
boundary the decoder state was captured at). -/
structure SourceCheckpoint where
  offset : Nat
deriving DecidableEq, Repr

/-- savior.ExtractorCheckpoint: entry index, whole-archive progress, the
in-progress entry (or null), and the Source's own resumption state. -/
structure ExtractorCheckpoint where
  entryIndex : Nat
  progress : Rat
  entry : Option Entry
  sourceCheckpoint : Option SourceCheckpoint
deriving DecidableEq, Repr

/-- savior.ExtractorResult: the full ordered entry list. -/
structure ExtractorResult where
  entries : List Entry
deriving DecidableEq, Repr

/-- Modelled from the spec: the observable calls the engine makes on the
Sink (section 4.2), in chronological order. -/
inductive SinkEvent
  | preallocate (e : Entry)
  | mkdir (e : Entry)
  | symlink (e : Entry) (target : List Byte)
  | write (path : String) (off : Nat) (bytes : List Byte)
  | sync (path : String)
deriving DecidableEq, Repr

/-- Write `bytes` into `cur` at offset `off`, zero-filling any gap past the
end of the file (POSIX positional write). -/
def writeBytes (cur : List Byte) (off : Nat) (bytes : List Byte) : List Byte :=
  (cur.take off ++ List.replicate (off - cur.length) 0) ++ bytes ++ cur.drop (off + bytes.length)

/-- Modelled from the spec: the destination file tree (section 4.2).  The
engine only observes it through the listed operations; `files` maps a path
to the byte content written so far and `events` is the call trace. -/
structure Sink where
  files : String → List Byte
  events : List SinkEvent

def Sink.write (s : Sink) (path : String) (off : Nat) (bytes : List Byte) : Sink :=
  { files := fun p => if p = path then writeBytes (s.files p) off bytes else s.files p
    events := s.events ++ [SinkEvent.write path off bytes] }

def Sink.preallocate (s : Sink) (e : Entry) : Sink :=
  { files := fun p => if p = e.canonicalPath then List.replicate e.uncompressedSize 0 else s.files p
    events := s.events ++ [SinkEvent.preallocate e] }

def Sink.mkdir (s : Sink) (e : Entry) : Sink :=
  { files := s.files, events := s.events ++ [SinkEvent.mkdir e] }

def Sink.symlinkTo (s : Sink) (e : Entry) (target : List Byte) : Sink :=
  { files := s.files, events := s.events ++ [SinkEvent.symlink e target] }

def Sink.sync (s : Sink) (path : String) : Sink :=
  { files := s.files, events := s.events ++ [SinkEvent.sync path] }

/-- Modelled from the spec: one scheduled step of a single entry's copy
(sections 4.1, 4.3); see the module docstring. -/
inductive CopyEvent
  | chunk (n : Nat)
  | save (lag : Option Nat) (stop : Bool)
deriving DecidableEq, Repr

abbrev EntryPlan := List CopyEvent

abbrev RunPlan := List EntryPlan

/-- `computeProgress` (zipextractor.go:224-227): `(doneBytes + writeOffset)
/ totalBytes`, as an exact rational. -/
def computeProgress (doneBytes totalBytes w : Nat) : Rat :=
  ((doneBytes + w : Nat) : Rat) / (totalBytes : Rat)

/-- State threaded through one entry's copy. -/
structure CopyState where
  sink : Sink
  e : Entry
  srcPos : Nat
  chkProgress : Rat
  chkSource : Option SourceCheckpoint
  reports : List Rat
  offers : List ExtractorCheckpoint
  progressLog : List Rat
  stopped : Bool

/-- One read/write chunk of (up to) `n` bytes: the source produces
`data[srcPos..srcPos+m)` and the copier writes it at the entry's current
write offset, then emits a progress report when bytes actually moved. -/
def copyChunk (data : List Byte) (doneBytes totalBytes n : Nat) (cs : CopyState) : CopyState :=
  let m := min n (data.length - cs.srcPos)
  if 0 < m then
    let w := cs.e.writeOffset
    let bytes := (data.drop cs.srcPos).take m
    let p := computeProgress doneBytes totalBytes (w + m)
    { cs with
      sink := cs.sink.write cs.e.canonicalPath w bytes
      e := { cs.e with writeOffset := w + m }
      srcPos := cs.srcPos + m
      reports := cs.reports ++ [p]
      progressLog := cs.progressLog ++ [p] }
  else cs

/-- The checkpoint value offered to the SaveConsumer at a save point
(zipextractor.go:229-255): current entry index, freshly computed progress,
the in-progress entry with its current write offset, and the source
checkpoint the source just emitted. -/
def mkOffer (entryIndex : Nat) (prog : Rat) (e : Entry) (p : Option SourceCheckpoint) :
    ExtractorCheckpoint :=
  { entryIndex := entryIndex, progress := prog, entry := some e, sourceCheckpoint := p }

/-- A save point (`OnSave`, zipextractor.go:230-254): store the source
checkpoint, `Sync` the writer, record progress, offer the checkpoint; a
stop verdict stops the copier (`copier.Stop()`), which aborts the copy
loop before any further chunk. -/
def copySave (entryIndex doneBytes totalBytes : Nat) (lag : Option Nat) (stop : Bool)
    (cs : CopyState) : CopyState :=
  let p := lag.map (fun l => SourceCheckpoint.mk (cs.srcPos - l))
  let prog := computeProgress doneBytes totalBytes cs.e.writeOffset
  let cs :=
    { cs with
      sink := cs.sink.sync cs.e.canonicalPath
      chkProgress := prog
      chkSource := p
      progressLog := cs.progressLog ++ [prog]
      offers := cs.offers ++ [mkOffer entryIndex prog cs.e p] }
  if stop then { cs with stopped := true } else cs

/-- Modelled from the spec: the Copier's loop for one entry (section 4.3).
Consumes the planned events in order; a stop verdict ends the loop at that
save point; once the plan is exhausted the copy runs to end-of-stream. -/
def copyLoop (data : List Byte) (entryIndex doneBytes totalBytes : Nat) :
    List CopyEvent → CopyState → CopyState
  | [], cs => copyChunk data doneBytes totalBytes (data.length - cs.srcPos) cs
  | CopyEvent.chunk n :: rest, cs =>
      copyLoop data entryIndex doneBytes totalBytes rest
        (copyChunk data doneBytes totalBytes n cs)
  | CopyEvent.save lag stop :: rest, cs =>
      let cs := copySave entryIndex doneBytes totalBytes lag stop cs
      if cs.stopped then cs
      else copyLoop data entryIndex doneBytes totalBytes rest cs

inductive ResumeOutcome
  | ok (res : ExtractorResult)
  | stop
  | ioError
deriving DecidableEq, Repr

/-- State threaded through the entry loop of `Resume`. -/
structure RState where
  sink : Sink
  chk : ExtractorCheckpoint
  doneBytes : Nat
  reports : List Rat
  offers : List ExtractorCheckpoint
  progressLog : List Rat
  discards : List (String × Nat)
  processed : List Nat
  stopped : Bool
  error : Bool

/-- End of a non-error entry iteration (zipextractor.go:273, 281-282):
account the entry's size into `doneBytes`, then clear the checkpoint's
source checkpoint and entry. -/
def finishEntry (zf : ZipFile) (st : RState) : RState :=
  { st with
    doneBytes := st.doneBytes + zf.data.length
    chk := { st.chk with sourceCheckpoint := none, entry := none } }

/-- Drive the Copier for a file entry whose Source resumed at `srcPos`
(zipextractor.go:219-270), then finish the iteration. -/
def driveCopy (plan : RunPlan) (totalBytes entryIndex : Nat) (zf : ZipFile) (e : Entry)
    (srcPos : Nat) (st : RState) : RState :=
  let cs0 : CopyState :=
    { sink := st.sink
      e := e
      srcPos := srcPos
      chkProgress := st.chk.progress
      chkSource := st.chk.sourceCheckpoint
      reports := st.reports
      offers := st.offers
      progressLog := st.progressLog
      stopped := false }
  let cs := copyLoop zf.data entryIndex st.doneBytes totalBytes (plan.getD entryIndex []) cs0
  finishEntry zf
    { st with
      sink := cs.sink
      chk := { st.chk with progress := cs.chkProgress, sourceCheckpoint := cs.chkSource, entry := some cs.e }
      reports := cs.reports
      offers := cs.offers
      progressLog := cs.progressLog
      stopped := cs.stopped }

/-- A Store or Deflate file entry (zipextractor.go:202-271): resume the
Source from the checkpoint (`src.Resume` returns the produced offset, 0 for
a nil checkpoint), discard-align when the source trails the writer
(`savior.DiscardByRead`, which fails with an I/O error if the stream ends
before `delta` bytes could be discarded), then drive the Copier. -/
def resumableEntry (plan : RunPlan) (totalBytes entryIndex : Nat) (zf : ZipFile) (e : Entry)
    (st : RState) : RState :=
  let offset := (st.chk.sourceCheckpoint.map SourceCheckpoint.offset).getD 0
  if offset < e.writeOffset then
    let delta := e.writeOffset - offset
    if zf.data.length - offset < delta then { st with error := true }
    else
      let st := { st with discards := st.discards ++ [(e.canonicalPath, delta)] }
      driveCopy plan totalBytes entryIndex zf e e.writeOffset st
  else
    driveCopy plan totalBytes entryIndex zf e offset st

/-- The body of one iteration of the entry loop (zipextractor.go:123-283):
record the index, take the entry from the checkpoint or derive it fresh,
then dispatch on the entry kind and, for files, on the storage method
(unsupported methods degrade to a one-shot full copy from byte zero,
zipextractor.go:181-201). -/
def processEntry (plan : RunPlan) (totalBytes entryIndex : Nat) (zf : ZipFile)
    (st : RState) : RState :=
  let st :=
    { st with
      chk := { st.chk with entryIndex := entryIndex }
      processed := st.processed ++ [entryIndex] }
  let e := st.chk.entry.getD (zipFileEntry zf)
  let st := { st with chk := { st.chk with entry := some e } }
  match e.kind with
  | EntryKind.dir => finishEntry zf { st with sink := st.sink.mkdir e }
  | EntryKind.symlink => finishEntry zf { st with sink := st.sink.symlinkTo e zf.data }
  | EntryKind.file =>
    match zf.method with
    | ZipMethod.store => resumableEntry plan totalBytes entryIndex zf e st
    | ZipMethod.deflate => resumableEntry plan totalBytes entryIndex zf e st
    | ZipMethod.other =>
        let e := { e with writeOffset := 0 }
        let st := { st with chk := { st.chk with entry := some e } }
        finishEntry zf { st with sink := st.sink.write e.canonicalPath 0 zf.data }

/-- The entry loop (zipextractor.go:119-283): iterate the remaining entries
in ascending index order, stopping when a stop verdict or an error was
recorded. -/
def entryLoop (plan : RunPlan) (totalBytes : Nat) :
    Nat → List ZipFile → RState → RState
  | _, [], st => st
  | entryIndex, zf :: rest, st =>
    if st.stopped || st.error then st
    else entryLoop plan totalBytes (entryIndex + 1) rest
      (processEntry plan totalBytes entryIndex zf st)

/-- Total uncompressed size of the archive (zipextractor.go:90-92). -/
def totalBytesOf (files : List ZipFile) : Nat :=
  (files.map (fun zf => zf.data.length)).sum

/-- Initial `doneBytes` (zipextractor.go:90-96): the summed sizes of the
entries whose index is strictly below the resume index, computed by the
same indexed traversal as the source. -/
def initialDoneBytes (files : List ZipFile) (entryIndex : Nat) : Nat :=
  files.enum.foldl
    (fun acc p => if p.1 < entryIndex then acc + p.2.data.length else acc) 0

/-- The fresh-run pre-allocation pass (zipextractor.go:101-109): every
file-kind entry is preallocated, in archive order. -/
def preallocAll (files : List ZipFile) (s : Sink) : Sink :=
  files.foldl
    (fun acc zf =>
      let entry := zipFileEntry zf
      if entry.kind = EntryKind.file then acc.preallocate entry else acc)
    s

/-- `zip.Reader` plus the driver's configuration (zipextractor.go:22-32). -/
structure ZipExtractor where
  files : List ZipFile
  flateThreshold : Int
deriving DecidableEq, Repr

/-- `defaultFlateThreshold` (zipextractor.go:20). -/
def defaultFlateThreshold : Int := 1 * 1024 * 1024

/-- `FlateThreshold` (zipextractor.go:64-69). -/
def ZipExtractor.FlateThreshold (ze : ZipExtractor) : Int :=
  if ze.flateThreshold > 0 then ze.flateThreshold else defaultFlateThreshold

def freshCheckpoint : ExtractorCheckpoint :=
  { entryIndex := 0, progress := 0, entry := none, sourceCheckpoint := none }

/-- The state `Resume` builds before entering the entry loop
(zipextractor.go:74-117): the fresh-run case substitutes an index-0
checkpoint and pre-allocates every file entry. -/
def resumeStart (ze : ZipExtractor) (checkpoint : Option ExtractorCheckpoint)
    (sink : Sink) : RState :=
  let chk0 := checkpoint.getD freshCheckpoint
  { sink := if checkpoint.isNone then preallocAll ze.files sink else sink
    chk := chk0
    doneBytes := initialDoneBytes ze.files chk0.entryIndex
    reports := [], offers := [], progressLog := [], discards := [], processed := []
    stopped := false, error := false }

/-- The state after the entry loop of `Resume` has run. -/
def resumeFinal (ze : ZipExtractor) (checkpoint : Option ExtractorCheckpoint)
    (sink : Sink) (plan : RunPlan) : RState :=
  entryLoop plan (totalBytesOf ze.files) (checkpoint.getD freshCheckpoint).entryIndex
    (ze.files.drop (checkpoint.getD freshCheckpoint).entryIndex)
    (resumeStart ze checkpoint sink)

/-- Translation of `Resume` (zipextractor.go:71-297).  Beyond the Go return
value (result or stop sentinel or error), the returned `RState` carries the
final checkpoint object state and the observable traces of the run. -/
def ZipExtractor.Resume (ze : ZipExtractor) (checkpoint : Option ExtractorCheckpoint)
    (sink : Sink) (plan : RunPlan) : ResumeOutcome × RState :=
  let stF := resumeFinal ze checkpoint sink plan
  if stF.error then (ResumeOutcome.ioError, stF)
  else if stF.stopped then (ResumeOutcome.stop, stF)
  else (ResumeOutcome.ok { entries := ze.files.map zipFileEntry }, stF)

/-- `true` on events that are not `Preallocate` calls. -/
def SinkEvent.nonPre : SinkEvent → Bool
  | SinkEvent.preallocate _ => false
  | _ => true

/-- The Preallocate calls a fresh run issues: one per file-kind entry, in
archive order. -/
def preallocEvents (files : List ZipFile) : List SinkEvent :=
  (files.filter (fun zf => (zipFileEntry zf).kind = EntryKind.file)).map
    (fun zf => SinkEvent.preallocate (zipFileEntry zf))

/-- Events a single entry's copy may emit: writes to the entry's path at or
past the given write offset, and syncs of that path. -/
def copyEventOK (path : String) (w : Nat) : SinkEvent → Prop
  | SinkEvent.write p off _ => p = path ∧ w ≤ off
  | SinkEvent.sync p => p = path
  | _ => False

/-- Sanity condition on an input checkpoint, used to state progress bounds:
if it carries an in-progress file entry, that entry's recorded write offset
does not exceed the size of the archive member it indexes.  Checkpoints the
engine itself offers always satisfy this. -/
def ChkOK (files : List ZipFile) (c : ExtractorCheckpoint) : Prop :=
  ∀ e, c.entry = some e → e.kind = EntryKind.file →
    ∀ zf, files.get? c.entryIndex = some zf → e.writeOffset ≤ zf.data.length

/-- All bytes of the archive belong to Store/Deflate file entries (the only
entries whose copy reports progress). -/
def resumableBytesOnly (files : List ZipFile) : Prop :=
  ∀ zf ∈ files, zf.data ≠ [] →
    (zipFileEntry zf).kind = EntryKind.file ∧
      (zf.method = ZipMethod.store ∨ zf.method = ZipMethod.deflate)

/-- The file-map effect of preallocating every file-kind entry. -/
def preallocData (files : List ZipFile) (g : String → List Byte) : String → List Byte :=
  files.foldl
    (fun acc zf =>
      if (zipFileEntry zf).kind = EntryKind.file then
        fun p => if p = zf.name then List.replicate zf.data.length 0 else acc p
      else acc)
    g

/-- The file-map effect of fully extracting one entry. -/
def applyEntryData (g : String → List Byte) (zf : ZipFile) : String → List Byte :=
  if (zipFileEntry zf).kind = EntryKind.file then
    fun p => if p = zf.name then writeBytes (g p) 0 zf.data else g p
  else g

/-- File contents after preallocation and full extraction of the first `i`
entries, starting from base contents `g`. -/
def boundaryFiles (files : List ZipFile) (g : String → List Byte) (i : Nat) :
    String → List Byte :=
  (files.take i).foldl applyEntryData (preallocData files g)

/-- File contents after a complete extraction over base contents `g`. -/
def idealFiles (files : List ZipFile) (g : String → List Byte) : String → List Byte :=
  boundaryFiles files g files.length

/-- File contents while entry `i` (= `zf`) is partially extracted: the
boundary state overlaid with the first `w` bytes of the entry's payload. -/
def midFiles (files : List ZipFile) (g : String → List Byte) (i : Nat) (zf : ZipFile)
    (w : Nat) : String → List Byte :=
  fun p =>
    if p = zf.name then writeBytes (boundaryFiles files g i p) 0 (zf.data.take w)
    else boundaryFiles files g i p

/-- A checkpoint the engine offered at a save point of a run whose base
contents (before preallocation) were `g`, together with the sink contents
`f` it was offered alongside: it indexes a resumable file entry, carries
that entry with a write offset within bounds, a source checkpoint at or
behind the writer, and the destination holds exactly the boundary state
plus the first `w` bytes of the entry. -/
def ValidChk (A : List ZipFile) (g : String → List Byte) (c : ExtractorCheckpoint)
    (f : String → List Byte) : Prop :=
  ∃ zf w, A.get? c.entryIndex = some zf ∧
    (zipFileEntry zf).kind = EntryKind.file ∧
    (zf.method = ZipMethod.store ∨ zf.method = ZipMethod.deflate) ∧
    c.entry = some { zipFileEntry zf with writeOffset := w } ∧
    w ≤ zf.data.length ∧
    (∀ q, c.sourceCheckpoint = some q → q.offset ≤ w) ∧
    f = midFiles A g c.entryIndex zf w

/-- The multi-session protocol of the round-trip property: run `Resume`
once per plan; a stopped run hands its last offered checkpoint to the next
run; a run that returns a result ends the protocol. -/
def sessions (ze : ZipExtractor) :
    List RunPlan → Sink → Option ExtractorCheckpoint → Bool →
      Sink × Option ExtractorCheckpoint × Bool
  | [], s, c, done => (s, c, done)
  | plan :: rest, s, c, done =>
    if done then (s, c, done)
    else
      let r := ze.Resume c s plan
      match r.1 with
      | ResumeOutcome.stop => sessions ze rest r.2.sink r.2.offers.getLast? false
      | _ => sessions ze rest r.2.sink c true

/-- N interrupted sessions, then (when still unfinished) a final run to
completion with an event-free schedule. -/
def roundTrip (ze : ZipExtractor) (s : Sink) (plans : List RunPlan) : Sink :=
  let r := sessions ze plans s none false
  if r.2.2 then r.1 else (ze.Resume r.2.1 r.1 []).2.sink

/-! Concrete fixtures used by witnesses and counterexamples. -/

def sink0 : Sink := { files := fun _ => [], events := [] }

def zfStoreA : ZipFile :=
  { name := "a", method := ZipMethod.store, mode := 420, data := [1, 2, 3, 4], compressedSize := 4 }

def zfSymS : ZipFile :=
  { name := "s", method := ZipMethod.store, mode := 2 ^ 27 + 511, data := [46], compressedSize := 1 }

def zfDeflD : ZipFile :=
  { name := "d", method := ZipMethod.deflate, mode := 420, data := [9, 8, 7, 6, 5], compressedSize := 3 }

def zfOther : ZipFile :=
  { name := "o", method := ZipMethod.other, mode := 420, data := [5, 6], compressedSize := 2 }

def zeABC : ZipExtractor := { files := [zfStoreA, zfSymS, zfDeflD], flateThreshold := 0 }

def zeA : ZipExtractor := { files := [zfStoreA], flateThreshold := 0 }

/-- Archive whose trailing symlink's bytes count toward `totalBytes` but
are never reported as progress. -/
def zeAS : ZipExtractor := { files := [zfStoreA, zfSymS], flateThreshold := 0 }

/-- Archive whose every byte belongs to a Store/Deflate file entry. -/
def zeAD : ZipExtractor := { files := [zfStoreA, zfDeflD], flateThreshold := 0 }

/-- A checkpoint whose source checkpoint (produced offset 3) is ahead of the
entry's recorded write offset 1. -/
def aheadChk : ExtractorCheckpoint :=
  { entryIndex := 0, progress := 0
    entry := some { zipFileEntry zfStoreA with writeOffset := 1 }
    sourceCheckpoint := some { offset := 3 } }

/-- Sink state matching `aheadChk`: the first byte of `a` was written. -/
def sinkA1 : Sink :=
  { files := fun p => if p = "a" then [1, 0, 0, 0] else [], events := [] }

/-- A schedule that stops at a save point after two bytes of the first
entry were produced and written. -/
def stopPlan : RunPlan := [[CopyEvent.chunk 2, CopyEvent.save (some 1) true]]

def eOtherFix : Entry :=
  { kind := EntryKind.file, canonicalPath := "o", compressedSize := 2, uncompressedSize := 2
    mode := 420, writeOffset := 3 }

/-- Mid-entry state for the alignment witness: 2 bytes of `a` written, the
source checkpoint at produced offset 1. -/
def c3FixState : RState :=
  { sink := { files := fun p => if p = "a" then [1, 2, 0, 0] else [], events := [] }
    chk := { entryIndex := 0, progress := 0
             entry := some { zipFileEntry zfStoreA with writeOffset := 2 }
             sourceCheckpoint := some { offset := 1 } }
    doneBytes := 0, reports := [], offers := [], progressLog := [], discards := []
    processed := [], stopped := false, error := false }

def stOtherFix : RState :=
  { sink := sink0
    chk := { entryIndex := 0, progress := 0, entry := some eOtherFix, sourceCheckpoint := none }
    doneBytes := 0, reports := [], offers := [], progressLog := [], discards := []
    processed := [], stopped := false, error := false }

/-! ## Claim theorems -/

/-- C10: noninterference of the flate threshold.  `Resume` never consults
the configured threshold — two extractors over the same archive that differ
only in `flateThreshold` produce identical outcomes, states and traces for
every checkpoint, sink and schedule (Deflate entries always take the
streaming-source path regardless of size) — while `FlateThreshold` returns
the configured value when positive and the 1 MiB default otherwise. -/
theorem C10_flateThreshold_noninterference :
    (∀ (files : List ZipFile) (t₁ t₂ : Int) (c : Option ExtractorCheckpoint) (s : Sink)
        (plan : RunPlan),
      ZipExtractor.Resume { files := files, flateThreshold := t₁ } c s plan =
        ZipExtractor.Resume { files := files, flateThreshold := t₂ } c s plan) ∧
    (∀ ze : ZipExtractor,
      (0 < ze.flateThreshold → ze.FlateThreshold = ze.flateThreshold) ∧
      (ze.flateThreshold ≤ 0 → ze.FlateThreshold = defaultFlateThreshold)) := by
  constructor
  · intro files t₁ t₂ c s plan
    rfl
  · intro ze
    constructor
    · intro h
      simp [ZipExtractor.FlateThreshold, h]
    · intro h
      simp [ZipExtractor.FlateThreshold, not_lt.mpr h]

/-- C10 witness: concrete instances of both conjuncts. -/
theorem C10_witness :
    ZipExtractor.FlateThreshold { files := [], flateThreshold := 7 } = 7 ∧
      ZipExtractor.FlateThreshold { files := [], flateThreshold := 0 } = defaultFlateThreshold :=
  ⟨(C10_flateThreshold_noninterference.2 { files := [], flateThreshold := 7 }).1 (by decide),
   (C10_flateThreshold_noninterference.2 { files := [], flateThreshold := 0 }).2 (by decide)⟩

/-- C2 (code bug evidence): resuming the single Store entry `a` (data
`[1,2,3,4]`) from a checkpoint whose source checkpoint resumed at produced
offset 3 while the entry's recorded write offset is 1 does NOT fail —
`Resume` (zipextractor.go:203-216 checks only `offset < entry.WriteOffset`)
silently keeps copying from the mismatched position and returns a success
result, leaving the corrupted content `[1,4,0,0]` instead of `[1,2,3,4]`. -/
theorem C2_ahead_checkpoint_not_rejected :
    (zeA.Resume (some aheadChk) sinkA1 []).1 =
        ResumeOutcome.ok { entries := [zipFileEntry zfStoreA] } ∧
      (zeA.Resume (some aheadChk) sinkA1 []).2.sink.files "a" = [1, 4, 0, 0] ∧
      [1, 4, 0, 0] ≠ zfStoreA.data := by
  refine ⟨by decide, by decide, by decide⟩

/-- C7: a file entry whose method is neither Store nor Deflate is handled
by the fallback branch (zipextractor.go:181-201): the entry's write offset
is reset to 0 and the whole payload is written in a single one-shot copy at
offset 0; the iteration then finishes normally.  The right-hand side makes
explicit that no checkpoint is offered, no progress is reported, and no
stop or error is recorded during that copy (only the sink write, the entry
reset, and the normal end-of-iteration bookkeeping happen). -/
theorem C7_fallback_full_copy (plan : RunPlan) (totalBytes entryIndex : Nat) (zf : ZipFile)
    (st : RState) (e : Entry) (he : st.chk.entry = some e) (hk : e.kind = EntryKind.file)
    (hm : zf.method = ZipMethod.other) :
    processEntry plan totalBytes entryIndex zf st =
      finishEntry zf
        { st with
          sink := st.sink.write e.canonicalPath 0 zf.data
          chk := { st.chk with entryIndex := entryIndex, entry := some { e with writeOffset := 0 } }
          processed := st.processed ++ [entryIndex] } := by
  unfold processEntry
  simp only [he, hm, Option.getD_some]
  split
  · rename_i h
    rw [hk] at h
    cases h
  · rename_i h
    rw [hk] at h
    cases h
  · rfl

/-- C7 witness: the fallback equation at a concrete entry with a stale
write offset 3; the payload `[5,6]` is written whole at offset 0. -/
theorem C7_witness :
    processEntry [] 2 0 zfOther stOtherFix =
      finishEntry zfOther
        { stOtherFix with
          sink := stOtherFix.sink.write eOtherFix.canonicalPath 0 zfOther.data
          chk := { stOtherFix.chk with entryIndex := 0, entry := some { eOtherFix with writeOffset := 0 } }
          processed := stOtherFix.processed ++ [0] } :=
  C7_fallback_full_copy [] 2 0 zfOther stOtherFix eOtherFix rfl rfl rfl

/-- C9 (counterexample): a run of the single-Store-entry archive stopped at
a save point after 2 of 4 bytes were written returns the stop sentinel, yet
the checkpoint object it leaves behind has a null `entry`
(zipextractor.go:281-282 clear it even in the stopped iteration) although
that entry's payload is only partially extracted (`[1,2,0,0]` of
`[1,2,3,4]`) — so a null entry IS observable for a partially-extracted
entry, contradicting the claimed invariant. -/
theorem C9_null_entry_after_stop_counterexample :
    (zeA.Resume none sink0 stopPlan).1 = ResumeOutcome.stop ∧
      (zeA.Resume none sink0 stopPlan).2.chk.entry = none ∧
      (zeA.Resume none sink0 stopPlan).2.chk.entryIndex = 0 ∧
      (zeA.Resume none sink0 stopPlan).2.sink.files "a" = [1, 2, 0, 0] ∧
      [1, 2, 0, 0] ≠ zfStoreA.data := by
  refine ⟨by decide, by decide, by decide, by decide, by decide⟩

/-! ## Structural lemmas about the state transformers -/

theorem Sink.write_events (s : Sink) (path : String) (off : Nat) (bytes : List Byte) :
    (s.write path off bytes).events = s.events ++ [SinkEvent.write path off bytes] := rfl

theorem Sink.write_files (s : Sink) (path p : String) (off : Nat) (bytes : List Byte) :
    (s.write path off bytes).files p =
      if p = path then writeBytes (s.files p) off bytes else s.files p := rfl

theorem finishEntry_sink (zf : ZipFile) (st : RState) : (finishEntry zf st).sink = st.sink := rfl

theorem finishEntry_error (zf : ZipFile) (st : RState) : (finishEntry zf st).error = st.error := rfl

theorem finishEntry_stopped (zf : ZipFile) (st : RState) :
    (finishEntry zf st).stopped = st.stopped := rfl

theorem finishEntry_offers (zf : ZipFile) (st : RState) :
    (finishEntry zf st).offers = st.offers := rfl

theorem finishEntry_processed (zf : ZipFile) (st : RState) :
    (finishEntry zf st).processed = st.processed := rfl

theorem finishEntry_progressLog (zf : ZipFile) (st : RState) :
    (finishEntry zf st).progressLog = st.progressLog := rfl

theorem finishEntry_chk (zf : ZipFile) (st : RState) :
    (finishEntry zf st).chk = { st.chk with sourceCheckpoint := none, entry := none } := rfl

theorem copyChunk_eq_pos (data : List Byte) (doneBytes totalBytes n : Nat) (cs : CopyState)
    (h : 0 < min n (data.length - cs.srcPos)) :
    copyChunk data doneBytes totalBytes n cs =
      { cs with
        sink := cs.sink.write cs.e.canonicalPath cs.e.writeOffset
          ((data.drop cs.srcPos).take (min n (data.length - cs.srcPos)))
        e := { cs.e with writeOffset := cs.e.writeOffset + min n (data.length - cs.srcPos) }
        srcPos := cs.srcPos + min n (data.length - cs.srcPos)
        reports := cs.reports ++
          [computeProgress doneBytes totalBytes (cs.e.writeOffset + min n (data.length - cs.srcPos))]
        progressLog := cs.progressLog ++
          [computeProgress doneBytes totalBytes (cs.e.writeOffset + min n (data.length - cs.srcPos))] } := by
  unfold copyChunk
  simp only [h, if_pos]

theorem copyChunk_eq_zero (data : List Byte) (doneBytes totalBytes n : Nat) (cs : CopyState)
    (h : ¬ 0 < min n (data.length - cs.srcPos)) :
    copyChunk data doneBytes totalBytes n cs = cs := by
  unfold copyChunk
  simp [h]

theorem copySave_eq (entryIndex doneBytes totalBytes : Nat) (lag : Option Nat) (stop : Bool)
    (cs : CopyState) :
    copySave entryIndex doneBytes totalBytes lag stop cs =
      { cs with
        sink := cs.sink.sync cs.e.canonicalPath
        chkProgress := computeProgress doneBytes totalBytes cs.e.writeOffset
        chkSource := lag.map (fun l => SourceCheckpoint.mk (cs.srcPos - l))
        progressLog := cs.progressLog ++ [computeProgress doneBytes totalBytes cs.e.writeOffset]
        offers := cs.offers ++
          [mkOffer entryIndex (computeProgress doneBytes totalBytes cs.e.writeOffset) cs.e
            (lag.map (fun l => SourceCheckpoint.mk (cs.srcPos - l)))]
        stopped := stop || cs.stopped } := by
  unfold copySave
  cases stop <;> simp

theorem copyLoop_nil (data : List Byte) (entryIndex doneBytes totalBytes : Nat) (cs : CopyState) :
    copyLoop data entryIndex doneBytes totalBytes [] cs =
      copyChunk data doneBytes totalBytes (data.length - cs.srcPos) cs := rfl

theorem copyLoop_chunk (data : List Byte) (entryIndex doneBytes totalBytes n : Nat)
    (rest : List CopyEvent) (cs : CopyState) :
    copyLoop data entryIndex doneBytes totalBytes (CopyEvent.chunk n :: rest) cs =
      copyLoop data entryIndex doneBytes totalBytes rest
        (copyChunk data doneBytes totalBytes n cs) := rfl

theorem copyLoop_save (data : List Byte) (entryIndex doneBytes totalBytes : Nat)
    (lag : Option Nat) (stop : Bool) (rest : List CopyEvent) (cs : CopyState) :
    copyLoop data entryIndex doneBytes totalBytes (CopyEvent.save lag stop :: rest) cs =
      (if (copySave entryIndex doneBytes totalBytes lag stop cs).stopped then
        copySave entryIndex doneBytes totalBytes lag stop cs
      else copyLoop data entryIndex doneBytes totalBytes rest
        (copySave entryIndex doneBytes totalBytes lag stop cs)) := rfl

theorem entryLoop_nil (plan : RunPlan) (totalBytes entryIndex : Nat) (st : RState) :
    entryLoop plan totalBytes entryIndex [] st = st := rfl

theorem entryLoop_cons (plan : RunPlan) (totalBytes entryIndex : Nat) (zf : ZipFile)
    (rest : List ZipFile) (st : RState) :
    entryLoop plan totalBytes entryIndex (zf :: rest) st =
      (if st.stopped || st.error then st
      else entryLoop plan totalBytes (entryIndex + 1) rest
        (processEntry plan totalBytes entryIndex zf st)) := rfl

theorem entryLoop_flagged (plan : RunPlan) (totalBytes entryIndex : Nat) (l : List ZipFile)
    (st : RState) (h : st.stopped || st.error) :
    entryLoop plan totalBytes entryIndex l st = st := by
  cases l with
  | nil => rfl
  | cons zf rest => rw [entryLoop_cons, if_pos h]

theorem processEntry_eq_dir (plan : RunPlan) (totalBytes entryIndex : Nat) (zf : ZipFile)
    (st : RState) (h : (st.chk.entry.getD (zipFileEntry zf)).kind = EntryKind.dir) :
    processEntry plan totalBytes entryIndex zf st =
      finishEntry zf
        { st with
          sink := st.sink.mkdir (st.chk.entry.getD (zipFileEntry zf))
          chk := { st.chk with entryIndex := entryIndex, entry := some (st.chk.entry.getD (zipFileEntry zf)) }
          processed := st.processed ++ [entryIndex] } := by
  unfold processEntry
  simp only []
  split
  · rfl
  · rename_i hk; rw [h] at hk; cases hk
  · rename_i hk; rw [h] at hk; cases hk

theorem processEntry_eq_symlink (plan : RunPlan) (totalBytes entryIndex : Nat) (zf : ZipFile)
    (st : RState) (h : (st.chk.entry.getD (zipFileEntry zf)).kind = EntryKind.symlink) :
    processEntry plan totalBytes entryIndex zf st =
      finishEntry zf
        { st with
          sink := st.sink.symlinkTo (st.chk.entry.getD (zipFileEntry zf)) zf.data
          chk := { st.chk with entryIndex := entryIndex, entry := some (st.chk.entry.getD (zipFileEntry zf)) }
          processed := st.processed ++ [entryIndex] } := by
  unfold processEntry
  simp only []
  split
  · rename_i hk; rw [h] at hk; cases hk
  · rfl
  · rename_i hk; rw [h] at hk; cases hk

theorem processEntry_eq_other (plan : RunPlan) (totalBytes entryIndex : Nat) (zf : ZipFile)
    (st : RState) (h : (st.chk.entry.getD (zipFileEntry zf)).kind = EntryKind.file)
    (hm : zf.method = ZipMethod.other) :
    processEntry plan totalBytes entryIndex zf st =
      finishEntry zf
        { st with
          sink := st.sink.write (st.chk.entry.getD (zipFileEntry zf)).canonicalPath 0 zf.data
          chk :=
            { st.chk with
              entryIndex := entryIndex
              entry := some { (st.chk.entry.getD (zipFileEntry zf)) with writeOffset := 0 } }
          processed := st.processed ++ [entryIndex] } := by
  unfold processEntry
  simp only []
  split
  · rename_i hk; rw [h] at hk; cases hk
  · rename_i hk; rw [h] at hk; cases hk
  · rw [hm]

theorem processEntry_eq_resumable (plan : RunPlan) (totalBytes entryIndex : Nat) (zf : ZipFile)
    (st : RState) (h : (st.chk.entry.getD (zipFileEntry zf)).kind = EntryKind.file)
    (hm : zf.method = ZipMethod.store ∨ zf.method = ZipMethod.deflate) :
    processEntry plan totalBytes entryIndex zf st =
      resumableEntry plan totalBytes entryIndex zf (st.chk.entry.getD (zipFileEntry zf))
        { st with
          chk := { st.chk with entryIndex := entryIndex, entry := some (st.chk.entry.getD (zipFileEntry zf)) }
          processed := st.processed ++ [entryIndex] } := by
  unfold processEntry
  simp only []
  split
  · rename_i hk; rw [h] at hk; cases hk
  · rename_i hk; rw [h] at hk; cases hk
  · rcases hm with hm | hm <;> rw [hm]

theorem Resume_snd (ze : ZipExtractor) (c : Option ExtractorCheckpoint) (s : Sink)
    (plan : RunPlan) : (ze.Resume c s plan).2 = resumeFinal ze c s plan := by
  unfold ZipExtractor.Resume
  dsimp only
  split
  · rfl
  · split <;> rfl

theorem writeBytes_length (cur : List Byte) (off : Nat) (bytes : List Byte) :
    (writeBytes cur off bytes).length = max (off + bytes.length) cur.length := by
  unfold writeBytes
  simp only [List.length_append, List.length_take, List.length_replicate, List.length_drop]
  omega

theorem writeBytes_take_of_le (cur : List Byte) (off w : Nat) (bytes : List Byte)
    (hw : w ≤ off) (hoff : off ≤ cur.length) :
    (writeBytes cur off bytes).take w = cur.take w := by
  unfold writeBytes
  have h0 : off - cur.length = 0 := Nat.sub_eq_zero_of_le hoff
  have hlen : (cur.take off).length = off := by rw [List.length_take]; omega
  rw [h0, List.replicate_zero, List.append_nil, List.append_assoc]
  rw [List.take_append_of_le_length (by rw [hlen]; exact hw)]
  rw [List.take_take, min_eq_left hw]

theorem writeBytes_zero (cur bytes : List Byte) :
    writeBytes cur 0 bytes = bytes ++ cur.drop bytes.length := by
  unfold writeBytes
  simp

theorem writeBytes_chunk_glue (base d : List Byte) (w m : Nat) (hwm : w + m ≤ d.length) :
    writeBytes (writeBytes base 0 (d.take w)) w ((d.drop w).take m) =
      writeBytes base 0 (d.take (w + m)) := by
  have hw : w ≤ d.length := by omega
  have hlen : (d.take w).length = w := by simp only [List.length_take]; omega
  have hlen2 : (d.take (w + m)).length = w + m := by simp only [List.length_take]; omega
  have hB : ((d.drop w).take m).length = m := by
    simp only [List.length_take, List.length_drop]; omega
  have h1 : ((d.take w ++ base.drop w).take w) = d.take w := by
    rw [List.take_append_of_le_length (le_of_eq hlen.symm), List.take_take, min_self]
  have h2 : w - (d.take w ++ base.drop w).length = 0 := by
    simp only [List.length_append, hlen]; omega
  have h3 : (d.take w ++ base.drop w).drop (w + m) = base.drop (w + m) := by
    rw [List.drop_append_eq_append_drop]
    rw [hlen]
    have h4 : (d.take w).drop (w + m) = [] := by
      apply List.drop_eq_nil_of_le
      omega
    rw [h4, List.nil_append, List.drop_drop]
    congr 1
    omega
  rw [writeBytes_zero, writeBytes_zero, hlen, hlen2]
  unfold writeBytes
  rw [hB, h1, h2, h3, List.replicate_zero, List.append_nil, ← List.take_add]

theorem resumableEntry_eq_error (plan : RunPlan) (totalBytes entryIndex : Nat) (zf : ZipFile)
    (e : Entry) (st : RState)
    (h1 : (st.chk.sourceCheckpoint.map SourceCheckpoint.offset).getD 0 < e.writeOffset)
    (h2 : zf.data.length - (st.chk.sourceCheckpoint.map SourceCheckpoint.offset).getD 0 <
      e.writeOffset - (st.chk.sourceCheckpoint.map SourceCheckpoint.offset).getD 0) :
    resumableEntry plan totalBytes entryIndex zf e st = { st with error := true } := by
  unfold resumableEntry
  rw [if_pos h1, if_pos h2]

theorem resumableEntry_eq_discard (plan : RunPlan) (totalBytes entryIndex : Nat) (zf : ZipFile)
    (e : Entry) (st : RState)
    (h1 : (st.chk.sourceCheckpoint.map SourceCheckpoint.offset).getD 0 < e.writeOffset)
    (h2 : ¬ (zf.data.length - (st.chk.sourceCheckpoint.map SourceCheckpoint.offset).getD 0 <
      e.writeOffset - (st.chk.sourceCheckpoint.map SourceCheckpoint.offset).getD 0)) :
    resumableEntry plan totalBytes entryIndex zf e st =
      driveCopy plan totalBytes entryIndex zf e e.writeOffset
        { st with discards := st.discards ++
            [(e.canonicalPath,
              e.writeOffset - (st.chk.sourceCheckpoint.map SourceCheckpoint.offset).getD 0)] } := by
  unfold resumableEntry
  rw [if_pos h1, if_neg h2]

theorem resumableEntry_eq_ahead (plan : RunPlan) (totalBytes entryIndex : Nat) (zf : ZipFile)
    (e : Entry) (st : RState)
    (h1 : ¬ ((st.chk.sourceCheckpoint.map SourceCheckpoint.offset).getD 0 < e.writeOffset)) :
    resumableEntry plan totalBytes entryIndex zf e st =
      driveCopy plan totalBytes entryIndex zf e
        ((st.chk.sourceCheckpoint.map SourceCheckpoint.offset).getD 0) st := by
  unfold resumableEntry
  rw [if_neg h1]

theorem driveCopy_processed (plan : RunPlan) (totalBytes entryIndex : Nat) (zf : ZipFile)
    (e : Entry) (srcPos : Nat) (st : RState) :
    (driveCopy plan totalBytes entryIndex zf e srcPos st).processed = st.processed := rfl

theorem driveCopy_error (plan : RunPlan) (totalBytes entryIndex : Nat) (zf : ZipFile)
    (e : Entry) (srcPos : Nat) (st : RState) :
    (driveCopy plan totalBytes entryIndex zf e srcPos st).error = st.error := rfl

theorem driveCopy_discards (plan : RunPlan) (totalBytes entryIndex : Nat) (zf : ZipFile)
    (e : Entry) (srcPos : Nat) (st : RState) :
    (driveCopy plan totalBytes entryIndex zf e srcPos st).discards = st.discards := rfl

theorem resumableEntry_processed (plan : RunPlan) (totalBytes entryIndex : Nat) (zf : ZipFile)
    (e : Entry) (st : RState) :
    (resumableEntry plan totalBytes entryIndex zf e st).processed = st.processed := by
  unfold resumableEntry
  dsimp only
  split
  · split <;> rfl
  · rfl

theorem processEntry_processed (plan : RunPlan) (totalBytes entryIndex : Nat) (zf : ZipFile)
    (st : RState) :
    (processEntry plan totalBytes entryIndex zf st).processed = st.processed ++ [entryIndex] := by
  rcases hk : (st.chk.entry.getD (zipFileEntry zf)).kind with _ | _ | _
  · rw [processEntry_eq_dir _ _ _ _ _ hk]; rfl
  · rw [processEntry_eq_symlink _ _ _ _ _ hk]; rfl
  · rcases hm : zf.method with _ | _ | _
    · rw [processEntry_eq_resumable _ _ _ _ _ hk (Or.inl hm), resumableEntry_processed]
    · rw [processEntry_eq_resumable _ _ _ _ _ hk (Or.inr hm), resumableEntry_processed]
    · rw [processEntry_eq_other _ _ _ _ _ hk hm]; rfl

theorem resumableEntry_not_both (plan : RunPlan) (totalBytes entryIndex : Nat) (zf : ZipFile)
    (e : Entry) (st : RState) (h1 : st.stopped = false) (h2 : st.error = false)
    (he : (resumableEntry plan totalBytes entryIndex zf e st).error = true) :
    (resumableEntry plan totalBytes entryIndex zf e st).stopped = false := by
  by_cases hlt : (st.chk.sourceCheckpoint.map SourceCheckpoint.offset).getD 0 < e.writeOffset
  · by_cases herr : zf.data.length - (st.chk.sourceCheckpoint.map SourceCheckpoint.offset).getD 0 <
        e.writeOffset - (st.chk.sourceCheckpoint.map SourceCheckpoint.offset).getD 0
    · rw [resumableEntry_eq_error _ _ _ _ _ _ hlt herr]
      exact h1
    · rw [resumableEntry_eq_discard _ _ _ _ _ _ hlt herr, driveCopy_error] at he
      dsimp only at he
      rw [h2] at he
      cases he
  · rw [resumableEntry_eq_ahead _ _ _ _ _ _ hlt, driveCopy_error] at he
    rw [h2] at he
    cases he

theorem processEntry_not_both (plan : RunPlan) (totalBytes entryIndex : Nat) (zf : ZipFile)
    (st : RState) (h1 : st.stopped = false) (h2 : st.error = false)
    (he : (processEntry plan totalBytes entryIndex zf st).error = true) :
    (processEntry plan totalBytes entryIndex zf st).stopped = false := by
  rcases hk : (st.chk.entry.getD (zipFileEntry zf)).kind with _ | _ | _
  · rw [processEntry_eq_dir _ _ _ _ _ hk, finishEntry_error] at he
    rw [h2] at he; cases he
  · rw [processEntry_eq_symlink _ _ _ _ _ hk, finishEntry_error] at he
    rw [h2] at he; cases he
  · rcases hm : zf.method with _ | _ | _
    · rw [processEntry_eq_resumable _ _ _ _ _ hk (Or.inl hm)] at he ⊢
      exact resumableEntry_not_both _ _ _ _ _ _ h1 h2 he
    · rw [processEntry_eq_resumable _ _ _ _ _ hk (Or.inr hm)] at he ⊢
      exact resumableEntry_not_both _ _ _ _ _ _ h1 h2 he
    · rw [processEntry_eq_other _ _ _ _ _ hk hm, finishEntry_error] at he
      rw [h2] at he; cases he

theorem entryLoop_not_both (plan : RunPlan) (totalBytes : Nat) (l : List ZipFile) :
    ∀ (entryIndex : Nat) (st : RState), st.stopped = false → st.error = false →
      ¬((entryLoop plan totalBytes entryIndex l st).stopped = true ∧
        (entryLoop plan totalBytes entryIndex l st).error = true) := by
  induction l with
  | nil =>
    intro entryIndex st h1 h2 h
    rw [entryLoop_nil] at h
    rw [h1] at h
    cases h.1
  | cons zf rest ih =>
    intro entryIndex st h1 h2 h
    rw [entryLoop_cons, if_neg (by rw [h1, h2]; simp)] at h
    by_cases he : (processEntry plan totalBytes entryIndex zf st).error = true
    · have hs := processEntry_not_both plan totalBytes entryIndex zf st h1 h2 he
      rw [entryLoop_flagged _ _ _ _ _ (by rw [he]; simp)] at h
      rw [hs] at h
      cases h.1
    · by_cases hstop : (processEntry plan totalBytes entryIndex zf st).stopped = true
      · rw [entryLoop_flagged _ _ _ _ _ (by rw [hstop]; simp)] at h
        exact he h.2
      · exact ih (entryIndex + 1) _ (Bool.not_eq_true _ ▸ hstop) (Bool.not_eq_true _ ▸ he) h

theorem resumeStart_stopped (ze : ZipExtractor) (c : Option ExtractorCheckpoint) (s : Sink) :
    (resumeStart ze c s).stopped = false := rfl

theorem resumeStart_error (ze : ZipExtractor) (c : Option ExtractorCheckpoint) (s : Sink) :
    (resumeStart ze c s).error = false := rfl

theorem resumeFinal_not_both (ze : ZipExtractor) (c : Option ExtractorCheckpoint) (s : Sink)
    (plan : RunPlan) :
    ¬((resumeFinal ze c s plan).stopped = true ∧ (resumeFinal ze c s plan).error = true) := by
  unfold resumeFinal
  exact entryLoop_not_both _ _ _ _ _ (resumeStart_stopped ze c s) (resumeStart_error ze c s)

theorem Resume_ok_flags (ze : ZipExtractor) (c : Option ExtractorCheckpoint) (s : Sink)
    (plan : RunPlan) (res : ExtractorResult)
    (h : (ze.Resume c s plan).1 = ResumeOutcome.ok res) :
    (resumeFinal ze c s plan).error = false ∧ (resumeFinal ze c s plan).stopped = false ∧
      res = { entries := ze.files.map zipFileEntry } := by
  unfold ZipExtractor.Resume at h
  dsimp only at h
  split at h
  · cases h
  · split at h
    · cases h
    · rename_i herr hstop
      refine ⟨Bool.not_eq_true _ ▸ herr, Bool.not_eq_true _ ▸ hstop, ?_⟩
      cases h
      rfl

/-- C6: the stop verdict is a sentinel, not a success or an error.
`Resume` returns the distinguished stop condition (and, by the shape of the
return type, no result value) exactly when a SaveConsumer stop verdict was
recorded during the run; a result value is produced only on full,
uninterrupted completion, and it then lists every entry of the archive in
index order (`ze.files.map zipFileEntry`). -/
theorem C6_stop_sentinel (ze : ZipExtractor) (c : Option ExtractorCheckpoint) (s : Sink)
    (plan : RunPlan) :
    ((ze.Resume c s plan).1 = ResumeOutcome.stop ↔ (resumeFinal ze c s plan).stopped = true) ∧
      (∀ res, (ze.Resume c s plan).1 = ResumeOutcome.ok res →
        (resumeFinal ze c s plan).stopped = false ∧
          res.entries = ze.files.map zipFileEntry) := by
  constructor
  · constructor
    · intro h
      unfold ZipExtractor.Resume at h
      dsimp only at h
      split at h
      · cases h
      · split at h
        · rename_i hstop
          exact hstop
        · cases h
    · intro h
      unfold ZipExtractor.Resume
      dsimp only
      have herr : (resumeFinal ze c s plan).error = false := by
        by_contra hc
        rw [Bool.not_eq_false] at hc
        exact resumeFinal_not_both ze c s plan ⟨h, hc⟩
      simp [herr, h]
  · intro res h
    obtain ⟨herr, hstop, hres⟩ := Resume_ok_flags ze c s plan res h
    exact ⟨hstop, by rw [hres]⟩

/-- C6 witness: a stopped run returns the stop sentinel; the same archive
run without interruption returns the full entry list. -/
theorem C6_witness :
    (zeABC.Resume none sink0 stopPlan).1 = ResumeOutcome.stop ∧
      (zeABC.Resume none sink0 []).1 =
        ResumeOutcome.ok { entries := zeABC.files.map zipFileEntry } := by
  constructor
  · exact (C6_stop_sentinel zeABC none sink0 stopPlan).1.mpr (by decide)
  · have h := (C6_stop_sentinel zeABC none sink0 []).2
    rcases ho : (zeABC.Resume none sink0 []).1 with res | _ | _
    · obtain ⟨-, hres⟩ := h _ ho
      cases res with
      | mk entries =>
        dsimp only at hres
        rw [hres]
    · revert ho; decide
    · revert ho; decide

theorem entryLoop_result_flags (plan : RunPlan) (totalBytes : Nat) (l : List ZipFile)
    (entryIndex : Nat) (st : RState)
    (h : (entryLoop plan totalBytes entryIndex l st).stopped = false ∧
      (entryLoop plan totalBytes entryIndex l st).error = false) :
    st.stopped = false ∧ st.error = false := by
  by_cases hs : st.stopped = true
  · rw [entryLoop_flagged _ _ _ _ _ (by rw [hs]; simp)] at h
    rw [hs] at h
    cases h.1
  · by_cases he : st.error = true
    · rw [entryLoop_flagged _ _ _ _ _ (by rw [he]; simp)] at h
      rw [he] at h
      cases h.2
    · exact ⟨Bool.not_eq_true _ ▸ hs, Bool.not_eq_true _ ▸ he⟩

theorem entryLoop_processed (plan : RunPlan) (totalBytes : Nat) (l : List ZipFile) :
    ∀ (entryIndex : Nat) (st : RState),
      (entryLoop plan totalBytes entryIndex l st).stopped = false →
      (entryLoop plan totalBytes entryIndex l st).error = false →
      (entryLoop plan totalBytes entryIndex l st).processed =
        st.processed ++ List.range' entryIndex l.length := by
  induction l with
  | nil =>
    intro entryIndex st _ _
    rw [entryLoop_nil]
    simp
  | cons zf rest ih =>
    intro entryIndex st hs he
    obtain ⟨hs0, he0⟩ := entryLoop_result_flags plan totalBytes (zf :: rest) entryIndex st ⟨hs, he⟩
    rw [entryLoop_cons, if_neg (by rw [hs0, he0]; simp)] at hs he ⊢
    obtain ⟨hs1, he1⟩ := entryLoop_result_flags plan totalBytes rest (entryIndex + 1)
      (processEntry plan totalBytes entryIndex zf st) ⟨hs, he⟩
    rw [ih (entryIndex + 1) _ hs he, processEntry_processed]
    rw [List.length_cons, List.range'_succ]
    simp

theorem initialDoneBytes_aux (files : List ZipFile) :
    ∀ (off acc k : Nat),
      (List.enumFrom off files).foldl
          (fun a p => if p.1 < k then a + p.2.data.length else a) acc =
        acc + ((files.take (k - off)).map (fun zf => zf.data.length)).sum := by
  induction files with
  | nil =>
    intro off acc k
    simp
  | cons zf rest ih =>
    intro off acc k
    rw [List.enumFrom_cons, List.foldl_cons]
    by_cases h : off < k
    · rw [if_pos h, ih]
      have hk : k - off = (k - (off + 1)) + 1 := by omega
      rw [hk, List.take_succ_cons, List.map_cons, List.sum_cons]
      dsimp only
      omega
    · rw [if_neg h, ih]
      have h1 : k - off = 0 := by omega
      have h2 : k - (off + 1) = 0 := by omega
      rw [h1, h2]
      simp

theorem initialDoneBytes_eq (files : List ZipFile) (k : Nat) :
    initialDoneBytes files k = ((files.take k).map (fun zf => zf.data.length)).sum := by
  unfold initialDoneBytes
  rw [show files.enum = List.enumFrom 0 files from rfl, initialDoneBytes_aux]
  simp

/-- C8: within one call, `Resume` processes entries in strictly ascending
index order starting exactly at the checkpoint's entry index (0 for a fresh
run); on a completed run the processed-index trace is exactly the
contiguous range from that index to the last index, and the initial
`doneBytes` value (zipextractor.go:88-96) equals the sum of the
uncompressed sizes of the entries strictly before the resume index. -/
theorem C8_iteration_order :
    (∀ (ze : ZipExtractor) (c : Option ExtractorCheckpoint) (s : Sink) (plan : RunPlan)
        (res : ExtractorResult),
      (ze.Resume c s plan).1 = ResumeOutcome.ok res →
      (ze.Resume c s plan).2.processed =
        List.range' (c.getD freshCheckpoint).entryIndex
          (ze.files.length - (c.getD freshCheckpoint).entryIndex)) ∧
    (∀ (files : List ZipFile) (k : Nat),
      initialDoneBytes files k = ((files.take k).map (fun zf => zf.data.length)).sum) := by
  constructor
  · intro ze c s plan res h
    obtain ⟨herr, hstop, -⟩ := Resume_ok_flags ze c s plan res h
    rw [Resume_snd]
    unfold resumeFinal at herr hstop ⊢
    rw [entryLoop_processed _ _ _ _ _ hstop herr]
    simp [resumeStart, List.length_drop]
  · intro files k
    exact initialDoneBytes_eq files k

/-- C8 witness: the completed fresh run over the three-entry archive
processes exactly the indices `[0, 1, 2]`, and the resumed-index baseline
formula evaluates as the prefix-sum. -/
theorem C8_witness :
    (zeABC.Resume none sink0 []).2.processed = List.range' 0 3 ∧
      initialDoneBytes zeABC.files 2 = 5 := by
  constructor
  · have h := C8_iteration_order.1 zeABC none sink0 []
      { entries := zeABC.files.map zipFileEntry } (by decide)
    rw [h]
    decide
  · rw [C8_iteration_order.2 zeABC.files 2]
    decide

theorem copyEventOK_mono (p : String) (w w' : Nat) (ev : SinkEvent) (h : w ≤ w')
    (hok : copyEventOK p w' ev) : copyEventOK p w ev := by
  cases ev with
  | write q off bytes => exact ⟨hok.1, le_trans h hok.2⟩
  | sync q => exact hok
  | preallocate e => exact hok.elim
  | mkdir e => exact hok.elim
  | symlink e t => exact hok.elim

theorem copyEventOK_nonPre (p : String) (w : Nat) (ev : SinkEvent)
    (hok : copyEventOK p w ev) : ev.nonPre = true := by
  cases ev with
  | write q off bytes => rfl
  | sync q => rfl
  | preallocate e => exact hok.elim
  | mkdir e => exact hok.elim
  | symlink e t => exact hok.elim

theorem copyChunk_e_path (data : List Byte) (a b n : Nat) (cs : CopyState) :
    (copyChunk data a b n cs).e.canonicalPath = cs.e.canonicalPath := by
  unfold copyChunk
  dsimp only
  split <;> rfl

theorem copyChunk_e_w (data : List Byte) (a b n : Nat) (cs : CopyState) :
    cs.e.writeOffset ≤ (copyChunk data a b n cs).e.writeOffset := by
  unfold copyChunk
  dsimp only
  split
  · exact Nat.le_add_right _ _
  · exact le_refl _

theorem copySave_e (i a b : Nat) (lag : Option Nat) (stop : Bool) (cs : CopyState) :
    (copySave i a b lag stop cs).e = cs.e := by
  rw [copySave_eq]

theorem copySave_srcPos (i a b : Nat) (lag : Option Nat) (stop : Bool) (cs : CopyState) :
    (copySave i a b lag stop cs).srcPos = cs.srcPos := by
  rw [copySave_eq]

theorem copySave_events (i a b : Nat) (lag : Option Nat) (stop : Bool) (cs : CopyState) :
    (copySave i a b lag stop cs).sink.events =
      cs.sink.events ++ [SinkEvent.sync cs.e.canonicalPath] := by
  rw [copySave_eq]
  rfl

theorem copyChunk_events (data : List Byte) (a b n : Nat) (cs : CopyState) :
    ∃ t, (copyChunk data a b n cs).sink.events = cs.sink.events ++ t ∧
      ∀ ev ∈ t, copyEventOK cs.e.canonicalPath cs.e.writeOffset ev := by
  unfold copyChunk
  dsimp only
  split
  · refine ⟨[SinkEvent.write cs.e.canonicalPath cs.e.writeOffset
      ((data.drop cs.srcPos).take (min n (data.length - cs.srcPos)))], rfl, ?_⟩
    intro ev hev
    rw [List.mem_singleton] at hev
    subst hev
    exact ⟨rfl, le_refl _⟩
  · exact ⟨[], (List.append_nil _).symm, by intro ev hev; cases hev⟩

theorem copyLoop_events (data : List Byte) (i a b : Nat) (E : List CopyEvent) :
    ∀ (cs : CopyState),
      ∃ t, (copyLoop data i a b E cs).sink.events = cs.sink.events ++ t ∧
        ∀ ev ∈ t, copyEventOK cs.e.canonicalPath cs.e.writeOffset ev := by
  induction E with
  | nil =>
    intro cs
    rw [copyLoop_nil]
    exact copyChunk_events data a b _ cs
  | cons ev rest ih =>
    intro cs
    cases ev with
    | chunk n =>
      rw [copyLoop_chunk]
      obtain ⟨t1, h1, hok1⟩ := copyChunk_events data a b n cs
      obtain ⟨t2, h2, hok2⟩ := ih (copyChunk data a b n cs)
      refine ⟨t1 ++ t2, ?_, ?_⟩
      · rw [h2, h1, List.append_assoc]
      · intro e he
        rcases List.mem_append.mp he with h | h
        · exact hok1 e h
        · have hk := hok2 e h
          rw [copyChunk_e_path] at hk
          exact copyEventOK_mono _ _ _ _ (copyChunk_e_w data a b n cs) hk
    | save lag stop =>
      rw [copyLoop_save]
      split
      · refine ⟨[SinkEvent.sync cs.e.canonicalPath], copySave_events i a b lag stop cs, ?_⟩
        intro e he
        rw [List.mem_singleton] at he
        subst he
        exact rfl
      · obtain ⟨t2, h2, hok2⟩ := ih (copySave i a b lag stop cs)
        refine ⟨[SinkEvent.sync cs.e.canonicalPath] ++ t2, ?_, ?_⟩
        · rw [h2, copySave_events, List.append_assoc]
        · intro e he
          rcases List.mem_append.mp he with h | h
          · rw [List.mem_singleton] at h
            subst h
            exact rfl
          · have hk := hok2 e h
            rw [copySave_e] at hk
            exact hk

theorem driveCopy_events (plan : RunPlan) (totalBytes entryIndex : Nat) (zf : ZipFile)
    (e : Entry) (srcPos : Nat) (st : RState) :
    ∃ t, (driveCopy plan totalBytes entryIndex zf e srcPos st).sink.events =
      st.sink.events ++ t ∧ ∀ ev ∈ t, copyEventOK e.canonicalPath e.writeOffset ev := by
  unfold driveCopy
  dsimp only
  exact copyLoop_events zf.data entryIndex st.doneBytes totalBytes (plan.getD entryIndex []) _

theorem resumableEntry_cases (plan : RunPlan) (totalBytes entryIndex : Nat) (zf : ZipFile)
    (e : Entry) (st : RState) :
    resumableEntry plan totalBytes entryIndex zf e st = { st with error := true } ∨
      ∃ (srcPos : Nat) (st' : RState), st'.sink = st.sink ∧ st'.offers = st.offers ∧
        st'.chk = st.chk ∧ st'.doneBytes = st.doneBytes ∧ st'.progressLog = st.progressLog ∧
        e.writeOffset ≤ srcPos ∧
        resumableEntry plan totalBytes entryIndex zf e st =
          driveCopy plan totalBytes entryIndex zf e srcPos st' := by
  by_cases hlt : (st.chk.sourceCheckpoint.map SourceCheckpoint.offset).getD 0 < e.writeOffset
  · by_cases herr : zf.data.length - (st.chk.sourceCheckpoint.map SourceCheckpoint.offset).getD 0 <
        e.writeOffset - (st.chk.sourceCheckpoint.map SourceCheckpoint.offset).getD 0
    · exact Or.inl (resumableEntry_eq_error _ _ _ _ _ _ hlt herr)
    · exact Or.inr ⟨e.writeOffset,
        { st with discards := st.discards ++ [(e.canonicalPath,
            e.writeOffset - (st.chk.sourceCheckpoint.map SourceCheckpoint.offset).getD 0)] },
        rfl, rfl, rfl, rfl, rfl, le_refl _, resumableEntry_eq_discard _ _ _ _ _ _ hlt herr⟩
  · exact Or.inr ⟨(st.chk.sourceCheckpoint.map SourceCheckpoint.offset).getD 0, st, rfl, rfl,
      rfl, rfl, rfl, Nat.le_of_not_lt hlt, resumableEntry_eq_ahead _ _ _ _ _ _ hlt⟩

theorem processEntry_events (plan : RunPlan) (totalBytes entryIndex : Nat) (zf : ZipFile)
    (st : RState) :
    ∃ t, (processEntry plan totalBytes entryIndex zf st).sink.events =
      st.sink.events ++ t ∧ ∀ ev ∈ t, ev.nonPre = true := by
  rcases hk : (st.chk.entry.getD (zipFileEntry zf)).kind with _ | _ | _
  · rw [processEntry_eq_dir _ _ _ _ _ hk, finishEntry_sink]
    exact ⟨[SinkEvent.mkdir _], rfl, by intro ev hev; rw [List.mem_singleton] at hev; subst hev; rfl⟩
  · rw [processEntry_eq_symlink _ _ _ _ _ hk, finishEntry_sink]
    exact ⟨[SinkEvent.symlink _ _], rfl,
      by intro ev hev; rw [List.mem_singleton] at hev; subst hev; rfl⟩
  · rcases hm : zf.method with _ | _ | _
    case file.other =>
      rw [processEntry_eq_other _ _ _ _ _ hk hm, finishEntry_sink]
      exact ⟨[SinkEvent.write _ 0 zf.data], rfl,
        by intro ev hev; rw [List.mem_singleton] at hev; subst hev; rfl⟩
    all_goals
      first
      | rw [processEntry_eq_resumable _ _ _ _ _ hk (Or.inl hm)]
      | rw [processEntry_eq_resumable _ _ _ _ _ hk (Or.inr hm)]
    all_goals
      rcases resumableEntry_cases plan totalBytes entryIndex zf
        (st.chk.entry.getD (zipFileEntry zf)) _ with h | ⟨srcPos, st', hsink, -, -, -, -, -, heq⟩
    all_goals
      first
      | (rw [h]; exact ⟨[], (List.append_nil _).symm, by intro ev hev; cases hev⟩)
      | (rw [heq]
         obtain ⟨t, ht, hok⟩ := driveCopy_events plan totalBytes entryIndex zf
           (st.chk.entry.getD (zipFileEntry zf)) srcPos st'
         refine ⟨t, by rw [ht, hsink], ?_⟩
         intro ev hev
         exact copyEventOK_nonPre _ _ _ (hok ev hev))

theorem entryLoop_events (plan : RunPlan) (totalBytes : Nat) (l : List ZipFile) :
    ∀ (entryIndex : Nat) (st : RState),
      ∃ t, (entryLoop plan totalBytes entryIndex l st).sink.events =
        st.sink.events ++ t ∧ ∀ ev ∈ t, ev.nonPre = true := by
  induction l with
  | nil =>
    intro entryIndex st
    exact ⟨[], (List.append_nil _).symm, by intro ev hev; cases hev⟩
  | cons zf rest ih =>
    intro entryIndex st
    rw [entryLoop_cons]
    split
    · exact ⟨[], (List.append_nil _).symm, by intro ev hev; cases hev⟩
    · obtain ⟨t1, h1, hok1⟩ := processEntry_events plan totalBytes entryIndex zf st
      obtain ⟨t2, h2, hok2⟩ := ih (entryIndex + 1) (processEntry plan totalBytes entryIndex zf st)
      refine ⟨t1 ++ t2, ?_, ?_⟩
      · rw [h2, h1, List.append_assoc]
      · intro ev hev
        rcases List.mem_append.mp hev with h | h
        · exact hok1 ev h
        · exact hok2 ev h

theorem preallocAll_events (files : List ZipFile) :
    ∀ (s : Sink), (preallocAll files s).events = s.events ++ preallocEvents files := by
  induction files with
  | nil =>
    intro s
    simp [preallocAll, preallocEvents]
  | cons zf rest ih =>
    intro s
    unfold preallocAll at ih ⊢
    rw [List.foldl_cons]
    by_cases h : (zipFileEntry zf).kind = EntryKind.file
    · rw [if_pos h, ih]
      have hev : (Sink.preallocate s (zipFileEntry zf)).events =
          s.events ++ [SinkEvent.preallocate (zipFileEntry zf)] := rfl
      rw [hev]
      unfold preallocEvents
      rw [List.filter_cons, if_pos (by simp [h]), List.map_cons]
      simp
    · rw [if_neg h, ih]
      unfold preallocEvents
      rw [List.filter_cons, if_neg (by simp [h])]

/-- C5: pre-allocation happens exactly once, up front, and only on fresh
runs.  A null-checkpoint `Resume` emits, right after the caller-provided
sink trace, exactly one `Preallocate` per file-kind entry of the archive in
archive order (`preallocEvents`), and every later event of the run — in
particular every write — is not a `Preallocate`; a `Resume` with a non-null
checkpoint emits no `Preallocate` at all. -/
theorem C5_preallocate_once :
    (∀ (ze : ZipExtractor) (s : Sink) (plan : RunPlan),
      ∃ t, (ze.Resume none s plan).2.sink.events =
        s.events ++ preallocEvents ze.files ++ t ∧ ∀ ev ∈ t, ev.nonPre = true) ∧
    (∀ (ze : ZipExtractor) (c : ExtractorCheckpoint) (s : Sink) (plan : RunPlan),
      ∃ t, (ze.Resume (some c) s plan).2.sink.events = s.events ++ t ∧
        ∀ ev ∈ t, ev.nonPre = true) := by
  constructor
  · intro ze s plan
    rw [Resume_snd]
    unfold resumeFinal
    obtain ⟨t, h, hok⟩ := entryLoop_events plan (totalBytesOf ze.files)
      (ze.files.drop (Option.getD none freshCheckpoint).entryIndex)
      (Option.getD none freshCheckpoint).entryIndex (resumeStart ze none s)
    refine ⟨t, ?_, hok⟩
    rw [h]
    have hs : (resumeStart ze none s).sink = preallocAll ze.files s := rfl
    rw [hs, preallocAll_events]
  · intro ze c s plan
    rw [Resume_snd]
    unfold resumeFinal
    obtain ⟨t, h, hok⟩ := entryLoop_events plan (totalBytesOf ze.files)
      (ze.files.drop ((some c).getD freshCheckpoint).entryIndex)
      ((some c).getD freshCheckpoint).entryIndex (resumeStart ze (some c) s)
    exact ⟨t, h, hok⟩

theorem copyChunk_offers (data : List Byte) (a b n : Nat) (cs : CopyState) :
    (copyChunk data a b n cs).offers = cs.offers := by
  unfold copyChunk
  dsimp only
  split <;> rfl

theorem copySave_offers (i a b : Nat) (lag : Option Nat) (stop : Bool) (cs : CopyState) :
    (copySave i a b lag stop cs).offers = cs.offers ++
      [mkOffer i (computeProgress a b cs.e.writeOffset) cs.e
        (lag.map (fun l => SourceCheckpoint.mk (cs.srcPos - l)))] := by
  rw [copySave_eq]

theorem copyLoop_offers_some (data : List Byte) (i a b : Nat) (E : List CopyEvent) :
    ∀ (cs : CopyState), (∀ o ∈ cs.offers, o.entry ≠ none) →
      ∀ o ∈ (copyLoop data i a b E cs).offers, o.entry ≠ none := by
  induction E with
  | nil =>
    intro cs h o ho
    rw [copyLoop_nil, copyChunk_offers] at ho
    exact h o ho
  | cons ev rest ih =>
    intro cs h
    cases ev with
    | chunk n =>
      rw [copyLoop_chunk]
      exact ih _ (by rw [copyChunk_offers]; exact h)
    | save lag stop =>
      have hsave : ∀ o ∈ (copySave i a b lag stop cs).offers, o.entry ≠ none := by
        rw [copySave_offers]
        intro o ho
        rcases List.mem_append.mp ho with hh | hh
        · exact h o hh
        · rw [List.mem_singleton] at hh
          subst hh
          intro hc
          cases hc
      rw [copyLoop_save]
      split
      · exact hsave
      · exact ih _ hsave

theorem driveCopy_offers_some (plan : RunPlan) (totalBytes entryIndex : Nat) (zf : ZipFile)
    (e : Entry) (srcPos : Nat) (st : RState) (h : ∀ o ∈ st.offers, o.entry ≠ none) :
    ∀ o ∈ (driveCopy plan totalBytes entryIndex zf e srcPos st).offers, o.entry ≠ none := by
  unfold driveCopy
  dsimp only
  exact copyLoop_offers_some zf.data entryIndex st.doneBytes totalBytes (plan.getD entryIndex []) _ h

theorem processEntry_offers_some (plan : RunPlan) (totalBytes entryIndex : Nat) (zf : ZipFile)
    (st : RState) (h : ∀ o ∈ st.offers, o.entry ≠ none) :
    ∀ o ∈ (processEntry plan totalBytes entryIndex zf st).offers, o.entry ≠ none := by
  rcases hk : (st.chk.entry.getD (zipFileEntry zf)).kind with _ | _ | _
  · rw [processEntry_eq_dir _ _ _ _ _ hk, finishEntry_offers]
    exact h
  · rw [processEntry_eq_symlink _ _ _ _ _ hk, finishEntry_offers]
    exact h
  · rcases hm : zf.method with _ | _ | _
    case file.other =>
      rw [processEntry_eq_other _ _ _ _ _ hk hm, finishEntry_offers]
      exact h
    all_goals
      first
      | rw [processEntry_eq_resumable _ _ _ _ _ hk (Or.inl hm)]
      | rw [processEntry_eq_resumable _ _ _ _ _ hk (Or.inr hm)]
    all_goals
      rcases resumableEntry_cases plan totalBytes entryIndex zf
        (st.chk.entry.getD (zipFileEntry zf)) _ with hcase | ⟨srcPos, st', -, hoffers, -, -, -, -, heq⟩
    all_goals
      first
      | (rw [hcase]; exact h)
      | (rw [heq]
         refine driveCopy_offers_some plan totalBytes entryIndex zf _ srcPos st' ?_
         rw [hoffers]
         exact h)

theorem entryLoop_offers_some (plan : RunPlan) (totalBytes : Nat) (l : List ZipFile) :
    ∀ (entryIndex : Nat) (st : RState), (∀ o ∈ st.offers, o.entry ≠ none) →
      ∀ o ∈ (entryLoop plan totalBytes entryIndex l st).offers, o.entry ≠ none := by
  induction l with
  | nil =>
    intro entryIndex st h
    rw [entryLoop_nil]
    exact h
  | cons zf rest ih =>
    intro entryIndex st h
    rw [entryLoop_cons]
    split
    · exact h
    · exact ih (entryIndex + 1) _ (processEntry_offers_some plan totalBytes entryIndex zf st h)

theorem driveCopy_chk_entry (plan : RunPlan) (totalBytes entryIndex : Nat) (zf : ZipFile)
    (e : Entry) (srcPos : Nat) (st : RState) :
    (driveCopy plan totalBytes entryIndex zf e srcPos st).chk.entry = none := rfl

theorem processEntry_chk_cleared (plan : RunPlan) (totalBytes entryIndex : Nat) (zf : ZipFile)
    (st : RState) (h : (processEntry plan totalBytes entryIndex zf st).error = false) :
    (processEntry plan totalBytes entryIndex zf st).chk.entry = none := by
  rcases hk : (st.chk.entry.getD (zipFileEntry zf)).kind with _ | _ | _
  · rw [processEntry_eq_dir _ _ _ _ _ hk, finishEntry_chk]
  · rw [processEntry_eq_symlink _ _ _ _ _ hk, finishEntry_chk]
  · rcases hm : zf.method with _ | _ | _
    case file.other =>
      rw [processEntry_eq_other _ _ _ _ _ hk hm, finishEntry_chk]
    all_goals
      first
      | rw [processEntry_eq_resumable _ _ _ _ _ hk (Or.inl hm)] at h ⊢
      | rw [processEntry_eq_resumable _ _ _ _ _ hk (Or.inr hm)] at h ⊢
    all_goals
      rcases resumableEntry_cases plan totalBytes entryIndex zf
        (st.chk.entry.getD (zipFileEntry zf)) _ with hcase | ⟨srcPos, st', -, -, -, -, -, -, heq⟩
    all_goals
      first
      | (rw [hcase] at h; cases h)
      | (rw [heq, driveCopy_chk_entry])

theorem entryLoop_entry_none (plan : RunPlan) (totalBytes : Nat) (l : List ZipFile) :
    ∀ (entryIndex : Nat) (st : RState), l ≠ [] → st.stopped = false → st.error = false →
      (entryLoop plan totalBytes entryIndex l st).error = false →
      (entryLoop plan totalBytes entryIndex l st).chk.entry = none := by
  induction l with
  | nil =>
    intro entryIndex st hne _ _ _
    exact absurd rfl hne
  | cons zf rest ih =>
    intro entryIndex st _ hs0 he0 hres
    rw [entryLoop_cons, if_neg (by rw [hs0, he0]; simp)] at hres ⊢
    by_cases he1 : (processEntry plan totalBytes entryIndex zf st).error = true
    · rw [entryLoop_flagged _ _ _ _ _ (by rw [he1]; simp)] at hres
      rw [he1] at hres
      cases hres
    · have he1f : (processEntry plan totalBytes entryIndex zf st).error = false := by
        rwa [Bool.not_eq_true] at he1
      have hentry := processEntry_chk_cleared plan totalBytes entryIndex zf st he1f
      by_cases hst : (processEntry plan totalBytes entryIndex zf st).stopped = true
      · rw [entryLoop_flagged _ _ _ _ _ (by rw [hst]; simp)]
        exact hentry
      · cases rest with
        | nil =>
          rw [entryLoop_nil]
          exact hentry
        | cons b bs =>
          exact ih (entryIndex + 1) _ (by intro hc; cases hc)
            (by rwa [Bool.not_eq_true] at hst) he1f hres

theorem Resume_not_ioError (ze : ZipExtractor) (c : Option ExtractorCheckpoint) (s : Sink)
    (plan : RunPlan) (h : (ze.Resume c s plan).1 ≠ ResumeOutcome.ioError) :
    (resumeFinal ze c s plan).error = false := by
  unfold ZipExtractor.Resume at h
  dsimp only at h
  split at h
  · exact absurd rfl h
  · rename_i herr
    rwa [Bool.not_eq_true] at herr

/-- C9 (amended): the null-entry invariant holds for every checkpoint the
engine offers to the SaveConsumer — those always carry a non-null entry, so
a null entry is never observed for an in-progress entry at a save point —
and a null entry is observable in the checkpoint object exactly at run
boundaries: after any non-error `Resume` that entered the entry loop the
held object's entry is null.  The claim's extension of the invariant to the
object held after a stopped return is false (see the counterexample): the
engine nulls the entry field even when the stopped entry is only partially
extracted, so for that object a null entry does not imply the entry's
payload was never begun. -/
theorem C9_null_entry_amended :
    (∀ (ze : ZipExtractor) (c : Option ExtractorCheckpoint) (s : Sink) (plan : RunPlan),
      ∀ o ∈ (ze.Resume c s plan).2.offers, o.entry ≠ none) ∧
    (∀ (ze : ZipExtractor) (c : Option ExtractorCheckpoint) (s : Sink) (plan : RunPlan),
      (c.getD freshCheckpoint).entryIndex < ze.files.length →
      (ze.Resume c s plan).1 ≠ ResumeOutcome.ioError →
      (ze.Resume c s plan).2.chk.entry = none) := by
  constructor
  · intro ze c s plan
    rw [Resume_snd]
    unfold resumeFinal
    exact entryLoop_offers_some plan (totalBytesOf ze.files) _ _ (resumeStart ze c s)
      (by intro o ho; cases ho)
  · intro ze c s plan hlt hio
    have herr := Resume_not_ioError ze c s plan hio
    rw [Resume_snd]
    unfold resumeFinal at herr ⊢
    refine entryLoop_entry_none plan (totalBytesOf ze.files) _ _ (resumeStart ze c s) ?_
      (resumeStart_stopped ze c s) (resumeStart_error ze c s) herr
    intro hc
    rw [List.drop_eq_nil_iff] at hc
    omega

/-- C9 amended witness: the single offer of the stopped run carries a
non-null entry, and a completed fresh run leaves a null entry. -/
theorem C9_amended_witness :
    (∀ o ∈ (zeA.Resume none sink0 stopPlan).2.offers, o.entry ≠ none) ∧
      (zeA.Resume none sink0 []).2.chk.entry = none :=
  ⟨fun o ho => C9_null_entry_amended.1 zeA none sink0 stopPlan o ho,
   C9_null_entry_amended.2 zeA none sink0 [] (by decide) (by decide)⟩

theorem copyChunk_files_other (data : List Byte) (a b n : Nat) (cs : CopyState) (q : String)
    (hq : q ≠ cs.e.canonicalPath) :
    (copyChunk data a b n cs).sink.files q = cs.sink.files q := by
  unfold copyChunk
  dsimp only
  split
  · exact if_neg hq
  · rfl

theorem copyChunk_files_len (data : List Byte) (a b n : Nat) (cs : CopyState)
    (hlen : cs.e.writeOffset ≤ (cs.sink.files cs.e.canonicalPath).length) :
    (copyChunk data a b n cs).e.writeOffset ≤
      ((copyChunk data a b n cs).sink.files (copyChunk data a b n cs).e.canonicalPath).length := by
  unfold copyChunk
  dsimp only
  split
  · rw [Sink.write_files, if_pos rfl, writeBytes_length]
    have hb : ((data.drop cs.srcPos).take (min n (data.length - cs.srcPos))).length =
        min n (data.length - cs.srcPos) := by
      rw [List.length_take, List.length_drop]
      omega
    rw [hb]
    exact le_max_left _ _
  · exact hlen

theorem copyChunk_files_prefix (data : List Byte) (a b n : Nat) (cs : CopyState)
    (hlen : cs.e.writeOffset ≤ (cs.sink.files cs.e.canonicalPath).length) :
    ((copyChunk data a b n cs).sink.files cs.e.canonicalPath).take cs.e.writeOffset =
      (cs.sink.files cs.e.canonicalPath).take cs.e.writeOffset := by
  unfold copyChunk
  dsimp only
  split
  · rw [Sink.write_files, if_pos rfl]
    exact writeBytes_take_of_le _ _ _ _ (le_refl _) hlen
  · rfl

theorem copySave_files (i a b : Nat) (lag : Option Nat) (stop : Bool) (cs : CopyState) :
    (copySave i a b lag stop cs).sink.files = cs.sink.files := by
  rw [copySave_eq]
  rfl

theorem copyLoop_files (data : List Byte) (i a b : Nat) (E : List CopyEvent) :
    ∀ (cs : CopyState),
      cs.e.writeOffset ≤ (cs.sink.files cs.e.canonicalPath).length →
      (∀ q, q ≠ cs.e.canonicalPath →
        (copyLoop data i a b E cs).sink.files q = cs.sink.files q) ∧
      ((copyLoop data i a b E cs).sink.files cs.e.canonicalPath).take cs.e.writeOffset =
        (cs.sink.files cs.e.canonicalPath).take cs.e.writeOffset := by
  induction E with
  | nil =>
    intro cs hlen
    rw [copyLoop_nil]
    exact ⟨fun q hq => copyChunk_files_other data a b _ cs q hq,
      copyChunk_files_prefix data a b _ cs hlen⟩
  | cons ev rest ih =>
    intro cs hlen
    cases ev with
    | chunk n =>
      rw [copyLoop_chunk]
      obtain ⟨ihother, ihpre⟩ := ih (copyChunk data a b n cs)
        (copyChunk_files_len data a b n cs hlen)
      constructor
      · intro q hq
        rw [ihother q (by rwa [copyChunk_e_path]), copyChunk_files_other data a b n cs q hq]
      · have hmono := copyChunk_e_w data a b n cs
        have hstep := copyChunk_files_prefix data a b n cs hlen
        rw [copyChunk_e_path] at ihpre
        calc ((copyLoop data i a b rest (copyChunk data a b n cs)).sink.files
                cs.e.canonicalPath).take cs.e.writeOffset
            = (((copyLoop data i a b rest (copyChunk data a b n cs)).sink.files
                cs.e.canonicalPath).take (copyChunk data a b n cs).e.writeOffset).take
                cs.e.writeOffset := by
              rw [List.take_take, min_eq_left hmono]
          _ = (((copyChunk data a b n cs).sink.files cs.e.canonicalPath).take
                (copyChunk data a b n cs).e.writeOffset).take cs.e.writeOffset := by
              rw [ihpre]
          _ = ((copyChunk data a b n cs).sink.files cs.e.canonicalPath).take
                cs.e.writeOffset := by
              rw [List.take_take, min_eq_left hmono]
          _ = (cs.sink.files cs.e.canonicalPath).take cs.e.writeOffset := hstep
    | save lag stop =>
      rw [copyLoop_save]
      split
      · rw [copySave_files]
        exact ⟨fun q _ => rfl, rfl⟩
      · obtain ⟨ihother, ihpre⟩ := ih (copySave i a b lag stop cs)
          (by rw [copySave_files, copySave_e]; exact hlen)
        rw [copySave_e, copySave_files] at ihother ihpre
        exact ⟨ihother, ihpre⟩

theorem driveCopy_files (plan : RunPlan) (totalBytes entryIndex : Nat) (zf : ZipFile)
    (e : Entry) (srcPos : Nat) (st : RState)
    (hlen : e.writeOffset ≤ (st.sink.files e.canonicalPath).length) :
    (∀ q, q ≠ e.canonicalPath →
      (driveCopy plan totalBytes entryIndex zf e srcPos st).sink.files q = st.sink.files q) ∧
    ((driveCopy plan totalBytes entryIndex zf e srcPos st).sink.files e.canonicalPath).take
        e.writeOffset = (st.sink.files e.canonicalPath).take e.writeOffset := by
  unfold driveCopy
  dsimp only
  exact copyLoop_files zf.data entryIndex st.doneBytes totalBytes (plan.getD entryIndex [])
    { sink := st.sink, e := e, srcPos := srcPos, chkProgress := st.chk.progress,
      chkSource := st.chk.sourceCheckpoint, reports := st.reports, offers := st.offers,
      progressLog := st.progressLog, stopped := false } hlen

/-- C3: alignment correctness.  When a file entry with a resumable storage
method is resumed from a checkpoint whose Source produced offset `p` is
strictly below the entry's recorded write offset `w` (and the checkpoint is
within bounds, `w ≤` entry size and `w ≤` current destination length), the
driver discards exactly `w - p` bytes from the Source before driving the
Copier (one discard record `(path, w - p)`), every sink write of that entry
is at offset `≥ w` on the entry's path, the destination's first `w` bytes
are unchanged, and no other file is touched. -/
theorem C3_alignment (plan : RunPlan) (totalBytes entryIndex : Nat) (zf : ZipFile)
    (st : RState) (e : Entry) (p : Nat)
    (he : st.chk.entry = some e) (hk : e.kind = EntryKind.file)
    (hm : zf.method = ZipMethod.store ∨ zf.method = ZipMethod.deflate)
    (hp : st.chk.sourceCheckpoint.map SourceCheckpoint.offset = some p)
    (hpw : p < e.writeOffset) (hwL : e.writeOffset ≤ zf.data.length)
    (hflen : e.writeOffset ≤ (st.sink.files e.canonicalPath).length) :
    (processEntry plan totalBytes entryIndex zf st).discards =
        st.discards ++ [(e.canonicalPath, e.writeOffset - p)] ∧
      (∃ t, (processEntry plan totalBytes entryIndex zf st).sink.events =
        st.sink.events ++ t ∧ ∀ ev ∈ t, copyEventOK e.canonicalPath e.writeOffset ev) ∧
      ((processEntry plan totalBytes entryIndex zf st).sink.files e.canonicalPath).take
          e.writeOffset = (st.sink.files e.canonicalPath).take e.writeOffset ∧
      (∀ q, q ≠ e.canonicalPath →
        (processEntry plan totalBytes entryIndex zf st).sink.files q = st.sink.files q) := by
  have hgd : st.chk.entry.getD (zipFileEntry zf) = e := by rw [he]; rfl
  have hk' : (st.chk.entry.getD (zipFileEntry zf)).kind = EntryKind.file := by rw [hgd]; exact hk
  rw [processEntry_eq_resumable _ _ _ _ _ hk' hm, hgd]
  have hoff : ((({ st with
      chk := { st.chk with entryIndex := entryIndex, entry := some e }
      processed := st.processed ++ [entryIndex] } : RState).chk.sourceCheckpoint.map
        SourceCheckpoint.offset).getD 0) = p := by
    dsimp only
    rw [hp]
    rfl
  have hlt : ((({ st with
      chk := { st.chk with entryIndex := entryIndex, entry := some e }
      processed := st.processed ++ [entryIndex] } : RState).chk.sourceCheckpoint.map
        SourceCheckpoint.offset).getD 0) < e.writeOffset := by rw [hoff]; exact hpw
  have hnerr : ¬ (zf.data.length - ((({ st with
      chk := { st.chk with entryIndex := entryIndex, entry := some e }
      processed := st.processed ++ [entryIndex] } : RState).chk.sourceCheckpoint.map
        SourceCheckpoint.offset).getD 0) < e.writeOffset - ((({ st with
      chk := { st.chk with entryIndex := entryIndex, entry := some e }
      processed := st.processed ++ [entryIndex] } : RState).chk.sourceCheckpoint.map
        SourceCheckpoint.offset).getD 0)) := by
    rw [hoff]
    omega
  rw [resumableEntry_eq_discard _ _ _ _ _ _ hlt hnerr]
  rw [hoff]
  constructor
  · rw [driveCopy_discards]
  constructor
  · obtain ⟨t, ht, hok⟩ := driveCopy_events plan totalBytes entryIndex zf e e.writeOffset _
    exact ⟨t, ht, hok⟩
  · obtain ⟨hother, hpre⟩ := driveCopy_files plan totalBytes entryIndex zf e e.writeOffset
      ({ st with
        chk := { st.chk with entryIndex := entryIndex, entry := some e }
        processed := st.processed ++ [entryIndex]
        discards := st.discards ++ [(e.canonicalPath, e.writeOffset - p)] } : RState) hflen
    exact ⟨hpre, hother⟩

/-- C3 witness.  Resuming the 4-byte Store entry from write offset 2 with a
source checkpoint at produced offset 1 discards exactly 1 byte, only
appends at offsets `≥ 2`, and leaves the 2 already-written bytes intact. -/
theorem C3_witness :
    (processEntry [] 4 0 zfStoreA c3FixState).discards = [("a", 1)] ∧
      (∃ t, (processEntry [] 4 0 zfStoreA c3FixState).sink.events =
        c3FixState.sink.events ++ t ∧ ∀ ev ∈ t, copyEventOK "a" 2 ev) ∧
      ((processEntry [] 4 0 zfStoreA c3FixState).sink.files "a").take 2 =
        (c3FixState.sink.files "a").take 2 ∧
      (∀ q, q ≠ "a" → (processEntry [] 4 0 zfStoreA c3FixState).sink.files q =
        c3FixState.sink.files q) :=
  C3_alignment [] 4 0 zfStoreA c3FixState { zipFileEntry zfStoreA with writeOffset := 2 } 1
    rfl rfl (Or.inl rfl) rfl (by decide) (by decide) (by decide)

theorem mem_getLastOpt {α : Type} {l : List α} {a : α} (h : l.getLast? = some a) : a ∈ l := by
  cases l with
  | nil => simp at h
  | cons x xs =>
    rw [List.getLast?_eq_getLast _ (by simp)] at h
    exact Option.some_injective _ h ▸ List.getLast_mem _

theorem getLastOpt_append_all_eq {α : Type} (l t : List α) (a : α) (h : ∀ x ∈ t, x = a)
    (hl : l.getLast? = some a) : (l ++ t).getLast? = some a := by
  rw [List.getLast?_append]
  cases ht : t.getLast? with
  | none => simp [hl]
  | some b =>
    have hb : b = a := h b (mem_getLastOpt ht)
    simp [hb]

theorem computeProgress_mono (D T : Nat) {w w' : Nat} (h : w ≤ w') :
    computeProgress D T w ≤ computeProgress D T w' := by
  unfold computeProgress
  rcases Nat.eq_zero_or_pos T with hT | hT
  · subst hT
    simp
  · rw [div_le_div_iff_of_pos_right (by exact_mod_cast hT)]
    exact_mod_cast Nat.add_le_add_left h D

theorem computeProgress_nonneg (D T w : Nat) : 0 ≤ computeProgress D T w := by
  unfold computeProgress
  exact div_nonneg (by positivity) (by positivity)

theorem computeProgress_le_one (D T w : Nat) (h : D + w ≤ T) :
    computeProgress D T w ≤ 1 := by
  unfold computeProgress
  rcases Nat.eq_zero_or_pos T with hT | hT
  · subst hT
    simp
  · rw [div_le_one (by exact_mod_cast hT)]
    exact_mod_cast h

theorem computeProgress_eq_one (D T : Nat) (h : D = T) (hT : 0 < T) :
    computeProgress D T 0 = 1 := by
  unfold computeProgress
  rw [Nat.add_zero, h]
  exact div_self (by positivity)

theorem computeProgress_base_mono (T : Nat) {D D' w : Nat} (h : D + w ≤ D') :
    computeProgress D T w ≤ computeProgress D' T 0 := by
  unfold computeProgress
  rcases Nat.eq_zero_or_pos T with hT | hT
  · subst hT
    simp
  · rw [div_le_div_iff_of_pos_right (by exact_mod_cast hT)]
    exact_mod_cast by omega

theorem copyChunk_srcPos_inv (data : List Byte) (a b n : Nat) (cs : CopyState)
    (h : cs.e.writeOffset ≤ cs.srcPos) :
    (copyChunk data a b n cs).e.writeOffset ≤ (copyChunk data a b n cs).srcPos := by
  unfold copyChunk
  dsimp only
  split
  · dsimp only
    omega
  · exact h

theorem copyChunk_log (data : List Byte) (a b n : Nat) (cs : CopyState)
    (h : cs.e.writeOffset ≤ cs.srcPos) :
    ∃ ws : List Nat,
      (copyChunk data a b n cs).progressLog =
        cs.progressLog ++ ws.map (fun w => computeProgress a b w) ∧
      (copyChunk data a b n cs).reports =
        cs.reports ++ ws.map (fun w => computeProgress a b w) ∧
      List.Chain' (fun x y => x ≤ y) (cs.e.writeOffset :: ws) ∧
      (∀ w ∈ ws, cs.e.writeOffset ≤ w ∧ w ≤ max cs.e.writeOffset data.length) ∧
      (∀ w ∈ ws, w ≤ (copyChunk data a b n cs).e.writeOffset) ∧
      (copyChunk data a b n cs).e.writeOffset ≤ max cs.e.writeOffset data.length ∧
      cs.e.writeOffset ≤ (copyChunk data a b n cs).e.writeOffset := by
  unfold copyChunk
  dsimp only
  split
  · rename_i hm
    refine ⟨[cs.e.writeOffset + min n (data.length - cs.srcPos)], rfl, rfl, ?_, ?_, ?_, ?_, ?_⟩
    · rw [List.chain'_cons]
      exact ⟨Nat.le_add_right _ _, List.chain'_singleton _⟩
    · intro w hw
      rw [List.mem_singleton] at hw
      subst hw
      refine ⟨Nat.le_add_right _ _, ?_⟩
      omega
    · intro w hw
      rw [List.mem_singleton] at hw
      subst hw
      exact le_refl _
    · dsimp only
      omega
    · exact Nat.le_add_right _ _
  · exact ⟨[], by simp, by simp, List.chain'_singleton _, by simp, by simp, le_max_left _ _,
      le_refl _⟩

theorem copyLoop_log (data : List Byte) (i a b : Nat) (E : List CopyEvent) :
    ∀ cs : CopyState, cs.e.writeOffset ≤ cs.srcPos →
      ∃ ws : List Nat,
        (copyLoop data i a b E cs).progressLog =
          cs.progressLog ++ ws.map (fun w => computeProgress a b w) ∧
        List.Chain' (fun x y => x ≤ y) (cs.e.writeOffset :: ws) ∧
        (∀ w ∈ ws, cs.e.writeOffset ≤ w ∧ w ≤ max cs.e.writeOffset data.length) ∧
        (∀ w ∈ ws, w ≤ (copyLoop data i a b E cs).e.writeOffset) ∧
        (copyLoop data i a b E cs).e.writeOffset ≤ max cs.e.writeOffset data.length ∧
        cs.e.writeOffset ≤ (copyLoop data i a b E cs).e.writeOffset := by
  induction E with
  | nil =>
    intro cs hsp
    rw [copyLoop_nil]
    obtain ⟨ws, hlog, -, hchain, hmem, hmemF, hmax, hle⟩ :=
      copyChunk_log data a b (data.length - cs.srcPos) cs hsp
    exact ⟨ws, hlog, hchain, hmem, hmemF, hmax, hle⟩
  | cons ev rest ih =>
    intro cs hsp
    cases ev with
    | chunk n =>
      rw [copyLoop_chunk]
      obtain ⟨ws1, hlog1, -, hchain1, hmem1, hmemF1, hmax1, hle1⟩ :=
        copyChunk_log data a b n cs hsp
      obtain ⟨ws2, hlog2, hchain2, hmem2, hmemF2, hmax2, hle2⟩ :=
        ih (copyChunk data a b n cs) (copyChunk_srcPos_inv data a b n cs hsp)
      refine ⟨ws1 ++ ws2, ?_, ?_, ?_, ?_, ?_, ?_⟩
      · rw [hlog2, hlog1, List.map_append, List.append_assoc]
      · have hcons : List.Chain' (fun x y => x ≤ y) ((cs.e.writeOffset :: ws1) ++ ws2) := by
          refine List.Chain'.append hchain1 (hchain2.tail) ?_
          intro x hx y hy
          have hx' := mem_getLastOpt hx
          have hy' := List.mem_of_mem_head? hy
          have hxle : x ≤ (copyChunk data a b n cs).e.writeOffset := by
            rcases List.mem_cons.mp hx' with h | h
            · subst h; exact hle1
            · exact hmemF1 x h
          exact le_trans hxle (hmem2 y hy').1
        exact hcons
      · intro w hw
        rcases List.mem_append.mp hw with h | h
        · exact hmem1 w h
        · obtain ⟨h1, h2⟩ := hmem2 w h
          constructor
          · exact le_trans hle1 h1
          · omega
      · intro w hw
        rcases List.mem_append.mp hw with h | h
        · exact le_trans (hmemF1 w h) hle2
        · exact hmemF2 w h
      · omega
      · exact le_trans hle1 hle2
    | save lag stop =>
      rw [copyLoop_save]
      split
      · rename_i hstop
        rw [copySave_eq]
        refine ⟨[cs.e.writeOffset], ?_, ?_, ?_, ?_, ?_, ?_⟩
        · rfl
        · rw [List.chain'_cons]
          exact ⟨le_refl _, List.chain'_singleton _⟩
        · intro w hw
          rw [List.mem_singleton] at hw
          subst hw
          exact ⟨le_refl _, le_max_left _ _⟩
        · intro w hw
          rw [List.mem_singleton] at hw
          subst hw
          rw [← copySave_eq i a b lag stop cs, copySave_e]
        · rw [← copySave_eq i a b lag stop cs, copySave_e]
          exact le_max_left _ _
        · rw [← copySave_eq i a b lag stop cs, copySave_e]
      · obtain ⟨ws2, hlog2, hchain2, hmem2, hmemF2, hmax2, hle2⟩ :=
          ih (copySave i a b lag stop cs) (by rw [copySave_e, copySave_srcPos]; exact hsp)
        rw [copySave_e] at hchain2 hmem2 hmax2 hle2
        refine ⟨cs.e.writeOffset :: ws2, ?_, ?_, ?_, ?_, ?_, ?_⟩
        · rw [hlog2, copySave_eq]
          dsimp only
          rw [List.map_cons, List.append_assoc]
          rfl
        · rw [List.chain'_cons]
          exact ⟨le_refl _, hchain2⟩
        · intro w hw
          rcases List.mem_cons.mp hw with h | h
          · subst h
            exact ⟨le_refl _, le_max_left _ _⟩
          · exact hmem2 w h
        · intro w hw
          rcases List.mem_cons.mp hw with h | h
          · subst h
            exact hle2
          · exact hmemF2 w h
        · exact hmax2
        · exact hle2

theorem driveCopy_doneBytes (plan : RunPlan) (totalBytes entryIndex : Nat) (zf : ZipFile)
    (e : Entry) (srcPos : Nat) (st : RState) :
    (driveCopy plan totalBytes entryIndex zf e srcPos st).doneBytes =
      st.doneBytes + zf.data.length := rfl

theorem driveCopy_log (plan : RunPlan) (T entryIndex : Nat) (zf : ZipFile) (e : Entry)
    (srcPos : Nat) (st : RState) (hsp : e.writeOffset ≤ srcPos)
    (hwL : e.writeOffset ≤ zf.data.length) :
    ∃ vs : List Rat,
      (driveCopy plan T entryIndex zf e srcPos st).progressLog = st.progressLog ++ vs ∧
      List.Chain' (fun x y => x ≤ y) vs ∧
      (∀ v ∈ vs, computeProgress st.doneBytes T 0 ≤ v ∧
        v ≤ computeProgress st.doneBytes T zf.data.length) := by
  unfold driveCopy
  dsimp only
  obtain ⟨ws, hlog, hchain, hmem, -, -, -⟩ :=
    copyLoop_log zf.data entryIndex st.doneBytes T (plan.getD entryIndex [])
      { sink := st.sink, e := e, srcPos := srcPos, chkProgress := st.chk.progress,
        chkSource := st.chk.sourceCheckpoint, reports := st.reports, offers := st.offers,
        progressLog := st.progressLog, stopped := false } hsp
  refine ⟨ws.map (fun w => computeProgress st.doneBytes T w), hlog, ?_, ?_⟩
  · rw [List.chain'_map]
    exact hchain.tail.imp (fun a b hab => computeProgress_mono _ _ hab)
  · intro v hv
    obtain ⟨w, hwmem, rfl⟩ := List.mem_map.mp hv
    obtain ⟨h1, h2⟩ := hmem w hwmem
    have h2' : w ≤ max e.writeOffset zf.data.length := h2
    refine ⟨computeProgress_mono _ _ (Nat.zero_le w), computeProgress_mono _ _ ?_⟩
    omega

theorem processEntry_log (plan : RunPlan) (T entryIndex : Nat) (zf : ZipFile) (st : RState)
    (hok : ∀ e, st.chk.entry = some e → e.kind = EntryKind.file →
      e.writeOffset ≤ zf.data.length) :
    ∃ vs : List Rat,
      (processEntry plan T entryIndex zf st).progressLog = st.progressLog ++ vs ∧
      List.Chain' (fun x y => x ≤ y) vs ∧
      (∀ v ∈ vs, computeProgress st.doneBytes T 0 ≤ v ∧
        v ≤ computeProgress st.doneBytes T zf.data.length) := by
  rcases hk : (st.chk.entry.getD (zipFileEntry zf)).kind with _ | _ | _
  · rw [processEntry_eq_dir _ _ _ _ _ hk, finishEntry_progressLog]
    exact ⟨[], (List.append_nil _).symm, List.chain'_nil, by intro v hv; cases hv⟩
  · rw [processEntry_eq_symlink _ _ _ _ _ hk, finishEntry_progressLog]
    exact ⟨[], (List.append_nil _).symm, List.chain'_nil, by intro v hv; cases hv⟩
  · have hwL : (st.chk.entry.getD (zipFileEntry zf)).writeOffset ≤ zf.data.length := by
      cases hce : st.chk.entry with
      | none => exact Nat.zero_le _
      | some e0 => exact hok e0 hce (by rw [hce] at hk; exact hk)
    rcases hm : zf.method with _ | _ | _
    case file.other =>
      rw [processEntry_eq_other _ _ _ _ _ hk hm, finishEntry_progressLog]
      exact ⟨[], (List.append_nil _).symm, List.chain'_nil, by intro v hv; cases hv⟩
    all_goals
      first
      | rw [processEntry_eq_resumable _ _ _ _ _ hk (Or.inl hm)]
      | rw [processEntry_eq_resumable _ _ _ _ _ hk (Or.inr hm)]
    all_goals
      rcases resumableEntry_cases plan T entryIndex zf
        (st.chk.entry.getD (zipFileEntry zf)) _ with hcase | ⟨srcPos, st', -, -, -, hdone, hplog, hsp, heq⟩
    all_goals
      first
      | (rw [hcase]
         exact ⟨[], (List.append_nil _).symm, List.chain'_nil, by intro v hv; cases hv⟩)
      | (rw [heq]
         obtain ⟨vs, hlog, hchain, hmem⟩ := driveCopy_log plan T entryIndex zf
           (st.chk.entry.getD (zipFileEntry zf)) srcPos st' hsp hwL
         rw [hplog] at hlog
         rw [hdone] at hmem
         exact ⟨vs, hlog, hchain, hmem⟩)

theorem processEntry_doneBytes (plan : RunPlan) (T entryIndex : Nat) (zf : ZipFile)
    (st : RState) (h : (processEntry plan T entryIndex zf st).error = false) :
    (processEntry plan T entryIndex zf st).doneBytes = st.doneBytes + zf.data.length := by
  rcases hk : (st.chk.entry.getD (zipFileEntry zf)).kind with _ | _ | _
  · rw [processEntry_eq_dir _ _ _ _ _ hk]; rfl
  · rw [processEntry_eq_symlink _ _ _ _ _ hk]; rfl
  · rcases hm : zf.method with _ | _ | _
    case file.other =>
      rw [processEntry_eq_other _ _ _ _ _ hk hm]; rfl
    all_goals
      first
      | rw [processEntry_eq_resumable _ _ _ _ _ hk (Or.inl hm)] at h ⊢
      | rw [processEntry_eq_resumable _ _ _ _ _ hk (Or.inr hm)] at h ⊢
    all_goals
      rcases resumableEntry_cases plan T entryIndex zf
        (st.chk.entry.getD (zipFileEntry zf)) _ with hcase | ⟨srcPos, st', -, -, -, hdone, -, -, heq⟩
    all_goals
      first
      | (rw [hcase] at h; cases h)
      | (rw [heq, driveCopy_doneBytes, hdone])

theorem entryLoop_log_main (plan : RunPlan) (T : Nat) (l : List ZipFile) :
    ∀ (k : Nat) (st : RState),
      st.doneBytes + (l.map (fun zf => zf.data.length)).sum ≤ T →
      (∀ e zf hd, st.chk.entry = some e → e.kind = EntryKind.file → l = zf :: hd →
        e.writeOffset ≤ zf.data.length) →
      List.Chain' (fun x y => x ≤ y) st.progressLog →
      (∀ q ∈ st.progressLog, 0 ≤ q ∧ q ≤ computeProgress st.doneBytes T 0) →
      (∀ q ∈ (entryLoop plan T k l st).progressLog, 0 ≤ q ∧ q ≤ 1) ∧
      List.Chain' (fun x y => x ≤ y) (entryLoop plan T k l st).progressLog := by
  induction l with
  | nil =>
    intro k st hsum _ hchain hbound
    rw [entryLoop_nil]
    refine ⟨?_, hchain⟩
    intro q hq
    obtain ⟨h0, h1⟩ := hbound q hq
    refine ⟨h0, le_trans h1 (computeProgress_le_one _ _ _ ?_)⟩
    simp only [List.map_nil, List.sum_nil] at hsum
    omega
  | cons zf rest ih =>
    intro k st hsum hentry hchain hbound
    have hDL : st.doneBytes + zf.data.length ≤ T := by
      simp only [List.map_cons, List.sum_cons] at hsum
      omega
    rw [entryLoop_cons]
    split
    · refine ⟨?_, hchain⟩
      intro q hq
      obtain ⟨h0, h1⟩ := hbound q hq
      exact ⟨h0, le_trans h1 (computeProgress_le_one _ _ _ (by omega))⟩
    · obtain ⟨vs, hlog, hchainv, hmemv⟩ := processEntry_log plan T k zf st
        (fun e hce hkind => hentry e zf rest hce hkind rfl)
      have hchain2 : List.Chain' (fun x y => x ≤ y)
          (processEntry plan T k zf st).progressLog := by
        rw [hlog]
        refine List.Chain'.append hchain hchainv ?_
        intro x hx y hy
        have hx' := (hbound x (mem_getLastOpt hx)).2
        have hy' := (hmemv y (List.mem_of_mem_head? hy)).1
        exact le_trans hx' hy'
      have hbound2 : ∀ q ∈ (processEntry plan T k zf st).progressLog,
          0 ≤ q ∧ q ≤ computeProgress (st.doneBytes + zf.data.length) T 0 := by
        rw [hlog]
        intro q hq
        rcases List.mem_append.mp hq with h | h
        · obtain ⟨h0, h1⟩ := hbound q h
          exact ⟨h0, le_trans h1 (computeProgress_base_mono T (by omega))⟩
        · obtain ⟨hlo, hhi⟩ := hmemv q h
          exact ⟨le_trans (computeProgress_nonneg _ _ _) hlo,
            le_trans hhi (computeProgress_base_mono T (le_refl _))⟩
      by_cases he : (processEntry plan T k zf st).error = true
      · rw [entryLoop_flagged _ _ _ _ _ (by rw [he]; simp)]
        refine ⟨?_, hchain2⟩
        intro q hq
        obtain ⟨h0, h1⟩ := hbound2 q hq
        exact ⟨h0, le_trans h1 (computeProgress_le_one _ _ _ (by omega))⟩
      · by_cases hst : (processEntry plan T k zf st).stopped = true
        · rw [entryLoop_flagged _ _ _ _ _ (by rw [hst]; simp)]
          refine ⟨?_, hchain2⟩
          intro q hq
          obtain ⟨h0, h1⟩ := hbound2 q hq
          exact ⟨h0, le_trans h1 (computeProgress_le_one _ _ _ (by omega))⟩
        · have hef : (processEntry plan T k zf st).error = false := by
            rwa [Bool.not_eq_true] at he
          have hdone2 := processEntry_doneBytes plan T k zf st hef
          refine ih (k + 1) (processEntry plan T k zf st) ?_ ?_ hchain2 ?_
          · rw [hdone2]
            simp only [List.map_cons, List.sum_cons] at hsum
            omega
          · intro e zf' hd' hce hkind _
            rw [processEntry_chk_cleared plan T k zf st hef] at hce
            cases hce
          · rw [hdone2]
            exact hbound2

theorem copyChunk_stopped (data : List Byte) (a b n : Nat) (cs : CopyState) :
    (copyChunk data a b n cs).stopped = cs.stopped := by
  unfold copyChunk
  dsimp only
  split <;> rfl

theorem driveCopy_stopped (plan : RunPlan) (totalBytes entryIndex : Nat) (zf : ZipFile)
    (e : Entry) (srcPos : Nat) (st : RState) :
    (driveCopy plan totalBytes entryIndex zf e srcPos st).stopped =
      (copyLoop zf.data entryIndex st.doneBytes totalBytes (plan.getD entryIndex [])
        ⟨st.sink, e, srcPos, st.chk.progress, st.chk.sourceCheckpoint, st.reports, st.offers,
          st.progressLog, false⟩).stopped := rfl

theorem driveCopy_progressLog (plan : RunPlan) (totalBytes entryIndex : Nat) (zf : ZipFile)
    (e : Entry) (srcPos : Nat) (st : RState) :
    (driveCopy plan totalBytes entryIndex zf e srcPos st).progressLog =
      (copyLoop zf.data entryIndex st.doneBytes totalBytes (plan.getD entryIndex [])
        ⟨st.sink, e, srcPos, st.chk.progress, st.chk.sourceCheckpoint, st.reports, st.offers,
          st.progressLog, false⟩).progressLog := rfl

theorem processEntry_chkSource_cleared (plan : RunPlan) (totalBytes entryIndex : Nat)
    (zf : ZipFile) (st : RState)
    (h : (processEntry plan totalBytes entryIndex zf st).error = false) :
    (processEntry plan totalBytes entryIndex zf st).chk.sourceCheckpoint = none := by
  rcases hk : (st.chk.entry.getD (zipFileEntry zf)).kind with _ | _ | _
  · rw [processEntry_eq_dir _ _ _ _ _ hk, finishEntry_chk]
  · rw [processEntry_eq_symlink _ _ _ _ _ hk, finishEntry_chk]
  · rcases hm : zf.method with _ | _ | _
    case file.other =>
      rw [processEntry_eq_other _ _ _ _ _ hk hm, finishEntry_chk]
    all_goals
      first
      | rw [processEntry_eq_resumable _ _ _ _ _ hk (Or.inl hm)] at h ⊢
      | rw [processEntry_eq_resumable _ _ _ _ _ hk (Or.inr hm)] at h ⊢
    all_goals
      rcases resumableEntry_cases plan totalBytes entryIndex zf
        (st.chk.entry.getD (zipFileEntry zf)) _ with hcase | ⟨srcPos, st', -, -, -, -, -, -, heq⟩
    all_goals
      first
      | (rw [hcase] at h; cases h)
      | (rw [heq]; rfl)

theorem computeProgress_shift (D T w : Nat) :
    computeProgress D T w = computeProgress (D + w) T 0 := by
  unfold computeProgress
  rw [Nat.add_zero]

theorem initialDoneBytes_drop (files : List ZipFile) (k : Nat) :
    initialDoneBytes files k + ((files.drop k).map (fun zf => zf.data.length)).sum =
      totalBytesOf files := by
  rw [initialDoneBytes_eq]
  unfold totalBytesOf
  rw [← List.sum_append, ← List.map_append, List.take_append_drop]

theorem copyLoop_log_last (data : List Byte) (i D T : Nat) (E : List CopyEvent) :
    ∀ cs : CopyState, cs.srcPos = cs.e.writeOffset → cs.e.writeOffset ≤ data.length →
      cs.stopped = false →
      (copyLoop data i D T E cs).stopped = false →
      (cs.e.writeOffset < data.length ∨
        cs.progressLog.getLast? = some (computeProgress D T cs.e.writeOffset)) →
      (copyLoop data i D T E cs).progressLog.getLast? =
        some (computeProgress D T data.length) := by
  induction E with
  | nil =>
    intro cs hsp hwL hs0 _ hdisj
    rw [copyLoop_nil]
    by_cases hlt : cs.e.writeOffset < data.length
    · have hm : 0 < min (data.length - cs.srcPos) (data.length - cs.srcPos) := by omega
      rw [copyChunk_eq_pos _ _ _ _ _ hm]
      dsimp only
      rw [List.getLast?_concat]
      congr 1
      rw [hsp]
      congr 1
      omega
    · have hwe : cs.e.writeOffset = data.length := by omega
      have hm : ¬ 0 < min (data.length - cs.srcPos) (data.length - cs.srcPos) := by omega
      rw [copyChunk_eq_zero _ _ _ _ _ hm]
      rcases hdisj with h | h
      · exact absurd h hlt
      · rw [h, hwe]
  | cons ev rest ih =>
    intro cs hsp hwL hs0 hres hdisj
    cases ev with
    | chunk n =>
      rw [copyLoop_chunk] at hres ⊢
      by_cases hm : 0 < min n (data.length - cs.srcPos)
      · rw [copyChunk_eq_pos _ _ _ _ _ hm] at hres ⊢
        refine ih _ ?_ ?_ ?_ hres ?_
        · dsimp only
          omega
        · dsimp only
          omega
        · exact hs0
        · dsimp only
          by_cases hlt : cs.e.writeOffset + min n (data.length - cs.srcPos) < data.length
          · exact Or.inl hlt
          · right
            rw [List.getLast?_concat]
      · rw [copyChunk_eq_zero _ _ _ _ _ hm] at hres ⊢
        exact ih cs hsp hwL hs0 hres hdisj
    | save lag stop =>
      rw [copyLoop_save] at hres ⊢
      split at hres
      · rename_i hstop
        rw [hstop] at hres
        cases hres
      · rename_i hstop
        rw [if_neg hstop] at *
        refine ih _ ?_ ?_ ?_ hres ?_
        · rw [copySave_e, copySave_srcPos]
          exact hsp
        · rw [copySave_e]
          exact hwL
        · rwa [Bool.not_eq_true] at hstop
        · right
          rw [copySave_e, copySave_eq]
          dsimp only
          rw [List.getLast?_concat]

theorem processEntry_log_last_clean (plan : RunPlan) (T k : Nat) (zf : ZipFile) (st : RState)
    (hce : st.chk.entry = none) (hsc : st.chk.sourceCheckpoint = none)
    (hk : (zipFileEntry zf).kind = EntryKind.file)
    (hm : zf.method = ZipMethod.store ∨ zf.method = ZipMethod.deflate)
    (hL : 0 < zf.data.length)
    (hstop : (processEntry plan T k zf st).stopped = false) :
    (processEntry plan T k zf st).progressLog.getLast? =
      some (computeProgress st.doneBytes T zf.data.length) := by
  have hgd : st.chk.entry.getD (zipFileEntry zf) = zipFileEntry zf := by rw [hce]; rfl
  have hk' : (st.chk.entry.getD (zipFileEntry zf)).kind = EntryKind.file := by
    rw [hgd]; exact hk
  rw [processEntry_eq_resumable _ _ _ _ _ hk' hm] at hstop ⊢
  have h1 : ({ st with
      chk := { st.chk with entryIndex := k, entry := some (st.chk.entry.getD (zipFileEntry zf)) }
      processed := st.processed ++ [k] } : RState).chk.sourceCheckpoint = none := hsc
  have hnot : ¬ ((({ st with
      chk := { st.chk with entryIndex := k, entry := some (st.chk.entry.getD (zipFileEntry zf)) }
      processed := st.processed ++ [k] } : RState).chk.sourceCheckpoint.map
        SourceCheckpoint.offset).getD 0 < (st.chk.entry.getD (zipFileEntry zf)).writeOffset) := by
    rw [h1, hgd]
    simp [zipFileEntry]
  rw [resumableEntry_eq_ahead _ _ _ _ _ _ hnot] at hstop ⊢
  rw [driveCopy_progressLog]
  rw [driveCopy_stopped] at hstop
  refine copyLoop_log_last zf.data k _ T (plan.getD k []) _ ?_ ?_ rfl hstop ?_
  · show (({ st with
        chk := { st.chk with entryIndex := k, entry := some (st.chk.entry.getD (zipFileEntry zf)) }
        processed := st.processed ++ [k] } : RState).chk.sourceCheckpoint.map
          SourceCheckpoint.offset).getD 0 = (st.chk.entry.getD (zipFileEntry zf)).writeOffset
    rw [h1, hgd]
    simp [zipFileEntry]
  · show (st.chk.entry.getD (zipFileEntry zf)).writeOffset ≤ zf.data.length
    rw [hgd]
    exact Nat.zero_le _
  · left
    show (st.chk.entry.getD (zipFileEntry zf)).writeOffset < zf.data.length
    rw [hgd]
    exact hL

theorem entryLoop_log_last (plan : RunPlan) (T : Nat) (l : List ZipFile) :
    ∀ (k : Nat) (st : RState),
      st.stopped = false → st.error = false →
      (entryLoop plan T k l st).stopped = false →
      (entryLoop plan T k l st).error = false →
      st.chk.entry = none → st.chk.sourceCheckpoint = none →
      st.doneBytes + (l.map (fun zf => zf.data.length)).sum = T →
      0 < T →
      (∀ zf ∈ l, zf.data ≠ [] → (zipFileEntry zf).kind = EntryKind.file ∧
        (zf.method = ZipMethod.store ∨ zf.method = ZipMethod.deflate)) →
      (0 < (l.map (fun zf => zf.data.length)).sum ∨ st.progressLog.getLast? = some 1) →
      (entryLoop plan T k l st).progressLog.getLast? = some 1 := by
  induction l with
  | nil =>
    intro k st _ _ _ _ _ _ _ _ _ hdisj
    rw [entryLoop_nil]
    rcases hdisj with h | h
    · simp at h
    · exact h
  | cons zf rest ih =>
    intro k st hs0 he0 hress hrese hce hsc hsum hT hgood hdisj
    rw [entryLoop_cons, if_neg (by rw [hs0, he0]; simp)] at hress hrese ⊢
    obtain ⟨hs1, he1⟩ := entryLoop_result_flags plan T rest (k + 1) _ ⟨hress, hrese⟩
    have hdone1 := processEntry_doneBytes plan T k zf st he1
    have hce1 := processEntry_chk_cleared plan T k zf st he1
    have hsc1 := processEntry_chkSource_cleared plan T k zf st he1
    by_cases hL : 0 < zf.data.length
    · have hgd := hgood zf (List.mem_cons_self zf rest)
        (by intro h; rw [h] at hL; simp at hL)
      have hlast1 := processEntry_log_last_clean plan T k zf st hce hsc hgd.1 hgd.2 hL hs1
      refine ih (k + 1) _ hs1 he1 hress hrese hce1 hsc1 ?_ hT ?_ ?_
      · rw [hdone1]
        simp only [List.map_cons, List.sum_cons] at hsum
        omega
      · intro zf' hm' hne'
        exact hgood zf' (List.mem_cons_of_mem zf hm') hne'
      · by_cases hrest : 0 < (rest.map (fun zf => zf.data.length)).sum
        · exact Or.inl hrest
        · right
          rw [hlast1]
          have hDL : st.doneBytes + zf.data.length = T := by
            simp only [List.map_cons, List.sum_cons] at hsum
            omega
          rw [computeProgress_shift, computeProgress_eq_one _ _ hDL hT]
    · have hL0 : zf.data.length = 0 := by omega
      obtain ⟨vs, hlog, -, hmem⟩ := processEntry_log plan T k zf st
        (by intro e hcee; rw [hce] at hcee; cases hcee)
      have hvs1 : ∀ v ∈ vs, v = computeProgress st.doneBytes T 0 := by
        intro v hv
        obtain ⟨hlo, hhi⟩ := hmem v hv
        rw [hL0] at hhi
        exact le_antisymm hhi hlo
      refine ih (k + 1) _ hs1 he1 hress hrese hce1 hsc1 ?_ hT ?_ ?_
      · rw [hdone1, hL0]
        simp only [List.map_cons, List.sum_cons, hL0] at hsum
        omega
      · intro zf' hm' hne'
        exact hgood zf' (List.mem_cons_of_mem zf hm') hne'
      · by_cases hrest : 0 < (rest.map (fun zf => zf.data.length)).sum
        · exact Or.inl hrest
        · right
          rcases hdisj with hpos | hlast
          · exfalso
            simp only [List.map_cons, List.sum_cons, hL0, Nat.zero_add] at hpos
            omega
          · rw [hlog]
            have hDT : st.doneBytes = T := by
              simp only [List.map_cons, List.sum_cons, hL0] at hsum
              omega
            refine getLastOpt_append_all_eq _ _ _ ?_ hlast
            intro v hv
            rw [hvs1 v hv, computeProgress_eq_one _ _ hDT hT]

/-- C4 (counterexample): a successful fresh run over the archive
`[Store file a (4 bytes), symlink s (1 byte)]` completes with the single
reported progress value `4/5`: the symlink's byte is counted in
`totalBytes` (zipextractor.go:90-92) but never flows through the Copier, so
no report — via the consumer callback or `checkpoint.Progress` — ever
equals 1.0, refuting "reaches exactly 1.0 at completion". -/
theorem C4_progress_counterexample :
    (zeAS.Resume none sink0 []).1 =
        ResumeOutcome.ok { entries := zeAS.files.map zipFileEntry } ∧
      (zeAS.Resume none sink0 []).2.progressLog = [computeProgress 0 5 4] ∧
      computeProgress 0 5 4 ≠ 1 := by
  refine ⟨by decide, rfl, by norm_num [computeProgress]⟩

/-- C4 (amended): every progress value the engine computes — each consumer
report and each `checkpoint.Progress` update, gathered chronologically in
`progressLog` — lies in `[0,1]` and is monotonically non-decreasing within
one run, for fresh runs and for any input checkpoint whose in-progress
entry is within bounds (`ChkOK`; engine-offered checkpoints always are).
The final value is exactly 1 for a fresh completing run provided
`totalBytes > 0` and every entry with a nonzero uncompressed size is a
Store- or Deflate-stored file; symlink and unsupported-method payloads
count toward `totalBytes` but never produce progress reports, so archives
containing them finish below 1 (see the counterexample). -/
theorem C4_progress_amended :
    (∀ (ze : ZipExtractor) (c : Option ExtractorCheckpoint) (s : Sink) (plan : RunPlan),
      ChkOK ze.files (c.getD freshCheckpoint) →
      (∀ q ∈ (ze.Resume c s plan).2.progressLog, 0 ≤ q ∧ q ≤ 1) ∧
      List.Chain' (fun x y => x ≤ y) (ze.Resume c s plan).2.progressLog) ∧
    (∀ (ze : ZipExtractor) (s : Sink) (plan : RunPlan) (res : ExtractorResult),
      (ze.Resume none s plan).1 = ResumeOutcome.ok res →
      0 < totalBytesOf ze.files →
      resumableBytesOnly ze.files →
      (ze.Resume none s plan).2.progressLog.getLast? = some 1) := by
  constructor
  · intro ze c s plan hok
    rw [Resume_snd]
    unfold resumeFinal
    refine entryLoop_log_main plan (totalBytesOf ze.files)
      (ze.files.drop (c.getD freshCheckpoint).entryIndex)
      (c.getD freshCheckpoint).entryIndex (resumeStart ze c s) ?_ ?_ ?_ ?_
    · exact le_of_eq (initialDoneBytes_drop ze.files (c.getD freshCheckpoint).entryIndex)
    · intro e zf hd hce hkind hdrop
      have hzf : ze.files.get? (c.getD freshCheckpoint).entryIndex = some zf := by
        rw [List.get?_eq_getElem?, ← List.head?_drop, hdrop]
        rfl
      exact hok e hce hkind zf hzf
    · exact List.chain'_nil
    · intro q hq
      cases hq
  · intro ze s plan res h hT hgood
    obtain ⟨herr, hstop, -⟩ := Resume_ok_flags ze none s plan res h
    rw [Resume_snd]
    unfold resumeFinal at herr hstop ⊢
    refine entryLoop_log_last plan (totalBytesOf ze.files)
      (ze.files.drop (Option.getD none freshCheckpoint).entryIndex)
      (Option.getD none freshCheckpoint).entryIndex (resumeStart ze none s)
      rfl rfl hstop herr rfl rfl ?_ hT ?_ ?_
    · exact initialDoneBytes_drop ze.files 0
    · intro zf hm hne
      refine hgood zf ?_ hne
      rw [show (Option.getD none freshCheckpoint).entryIndex = 0 from rfl,
        List.drop_zero] at hm
      exact hm
    · left
      rw [show (Option.getD none freshCheckpoint).entryIndex = 0 from rfl, List.drop_zero]
      exact hT

/-- C4 amended witness: concrete instances — the bounded monotone log of a
fresh run over the symlink archive, and the final value 1 for the
all-resumable archive. -/
theorem C4_amended_witness :
    ((∀ q ∈ (zeAS.Resume none sink0 []).2.progressLog, 0 ≤ q ∧ q ≤ 1) ∧
      List.Chain' (fun x y => x ≤ y) (zeAS.Resume none sink0 []).2.progressLog) ∧
      (zeAD.Resume none sink0 []).2.progressLog.getLast? = some 1 :=
  ⟨C4_progress_amended.1 zeAS none sink0 []
      (by intro e he; simp [freshCheckpoint] at he),
   C4_progress_amended.2 zeAD sink0 [] { entries := zeAD.files.map zipFileEntry }
      (by decide) (by decide)
      (by
        intro zf hm hne
        rcases List.mem_cons.mp hm with h | h
        · subst h
          exact ⟨rfl, Or.inl rfl⟩
        · rcases List.mem_cons.mp h with h2 | h2
          · subst h2
            exact ⟨rfl, Or.inr rfl⟩
          · cases h2)⟩

theorem preallocAll_files (files : List ZipFile) :
    ∀ (s : Sink), (preallocAll files s).files = preallocData files s.files := by
  induction files with
  | nil =>
    intro s
    rfl
  | cons zf rest ih =>
    intro s
    unfold preallocAll preallocData at ih ⊢
    rw [List.foldl_cons, List.foldl_cons]
    by_cases h : (zipFileEntry zf).kind = EntryKind.file
    · rw [if_pos h, if_pos h, ih]
      rfl
    · rw [if_neg h, if_neg h, ih]

theorem boundaryFiles_zero (A : List ZipFile) (g : String → List Byte) :
    boundaryFiles A g 0 = preallocData A g := rfl

theorem boundaryFiles_succ (A : List ZipFile) (g : String → List Byte) (i : Nat)
    (zf : ZipFile) (hA : A.get? i = some zf) :
    boundaryFiles A g (i + 1) = applyEntryData (boundaryFiles A g i) zf := by
  unfold boundaryFiles
  rw [List.get?_eq_getElem?] at hA
  rw [List.take_succ, hA, Option.toList_some, List.foldl_append, List.foldl_cons,
    List.foldl_nil]

theorem boundaryFiles_stable (A : List ZipFile) (g : String → List Byte) (i : Nat)
    (h : A.length ≤ i) : boundaryFiles A g i = idealFiles A g := by
  unfold boundaryFiles idealFiles boundaryFiles
  rw [List.take_of_length_le h, List.take_of_length_le (le_refl _)]

theorem midFiles_zero (A : List ZipFile) (g : String → List Byte) (i : Nat) (zf : ZipFile) :
    midFiles A g i zf 0 = boundaryFiles A g i := by
  funext p
  unfold midFiles
  split
  · rename_i hp
    rw [List.take_zero, writeBytes_zero, List.length_nil, List.drop_zero, List.nil_append, hp]
  · rfl

theorem midFiles_complete (A : List ZipFile) (g : String → List Byte) (i : Nat)
    (zf : ZipFile) (hA : A.get? i = some zf) (hk : (zipFileEntry zf).kind = EntryKind.file) :
    midFiles A g i zf zf.data.length = boundaryFiles A g (i + 1) := by
  rw [boundaryFiles_succ A g i zf hA]
  funext p
  unfold midFiles applyEntryData
  rw [if_pos hk]
  by_cases hp : p = zf.name
  · rw [if_pos hp, if_pos hp, List.take_length]
  · rw [if_neg hp, if_neg hp]

theorem writeBytes_nil (cur : List Byte) (off : Nat) (h : off ≤ cur.length) :
    writeBytes cur off [] = cur := by
  unfold writeBytes
  rw [Nat.sub_eq_zero_of_le h]
  simp [List.take_append_drop]


theorem writeBytes_append2 (cur : List Byte) (off : Nat) (b1 b2 : List Byte)
    (hoff : off ≤ cur.length) :
    writeBytes (writeBytes cur off b1) (off + b1.length) b2 =
      writeBytes cur off (b1 ++ b2) := by
  have hpad : off - cur.length = 0 := Nat.sub_eq_zero_of_le hoff
  have hw : writeBytes cur off b1 =
      (cur.take off ++ b1) ++ cur.drop (off + b1.length) := by
    unfold writeBytes
    rw [hpad, List.replicate_zero, List.append_nil]
  have hlenAB : (cur.take off ++ b1).length = off + b1.length := by
    rw [List.length_append, List.length_take]
    omega
  have hL : ((cur.take off ++ b1) ++ cur.drop (off + b1.length)).length =
      off + b1.length + (cur.length - (off + b1.length)) := by
    rw [List.length_append, hlenAB, List.length_drop]
  have hp0 : off + b1.length -
      ((cur.take off ++ b1) ++ cur.drop (off + b1.length)).length = 0 := by
    rw [hL]
    omega
  have ht : ((cur.take off ++ b1) ++ cur.drop (off + b1.length)).take (off + b1.length) =
      cur.take off ++ b1 := by
    rw [← hlenAB]
    exact List.take_left _ _
  have hd : ((cur.take off ++ b1) ++ cur.drop (off + b1.length)).drop
      (off + b1.length + b2.length) = cur.drop (off + (b1 ++ b2).length) := by
    rw [show off + b1.length + b2.length = (cur.take off ++ b1).length + b2.length by
      rw [hlenAB]]
    rw [List.drop_append, List.drop_drop]
    congr 1
    rw [List.length_append]
    omega
  rw [hw]
  unfold writeBytes
  rw [hp0, hpad, List.replicate_zero, List.append_nil, List.append_nil, ht, hd]
  simp [List.append_assoc]

theorem copyChunk_align (data : List Byte) (a b n : Nat) (cs : CopyState)
    (h : cs.srcPos = cs.e.writeOffset) :
    (copyChunk data a b n cs).srcPos = (copyChunk data a b n cs).e.writeOffset := by
  unfold copyChunk
  dsimp only
  split
  · dsimp only
    omega
  · exact h

theorem copyChunk_files_pos (data : List Byte) (a b n : Nat) (cs : CopyState)
    (hm : 0 < min n (data.length - cs.srcPos)) :
    (copyChunk data a b n cs).sink.files = fun p =>
      if p = cs.e.canonicalPath then
        writeBytes (cs.sink.files cs.e.canonicalPath) cs.e.writeOffset
          ((data.drop cs.srcPos).take (min n (data.length - cs.srcPos)))
      else cs.sink.files p := by
  rw [copyChunk_eq_pos _ _ _ _ _ hm]
  dsimp only
  funext p
  rw [Sink.write_files]
  by_cases hp : p = cs.e.canonicalPath
  · rw [if_pos hp, if_pos hp, hp]
  · rw [if_neg hp, if_neg hp]

theorem copyLoop_aligned (data : List Byte) (i a b : Nat) (E : List CopyEvent) :
    ∀ cs : CopyState, cs.srcPos = cs.e.writeOffset →
      cs.e.writeOffset ≤ data.length →
      cs.e.writeOffset ≤ (cs.sink.files cs.e.canonicalPath).length →
      cs.stopped = false →
      (copyLoop data i a b E cs).e =
        { cs.e with writeOffset := (copyLoop data i a b E cs).e.writeOffset } ∧
      cs.e.writeOffset ≤ (copyLoop data i a b E cs).e.writeOffset ∧
      (copyLoop data i a b E cs).e.writeOffset ≤ data.length ∧
      (copyLoop data i a b E cs).sink.files = (fun p =>
        if p = cs.e.canonicalPath then
          writeBytes (cs.sink.files cs.e.canonicalPath) cs.e.writeOffset
            ((data.drop cs.e.writeOffset).take
              ((copyLoop data i a b E cs).e.writeOffset - cs.e.writeOffset))
        else cs.sink.files p) ∧
      ((copyLoop data i a b E cs).stopped = false →
        (copyLoop data i a b E cs).e.writeOffset = data.length) := by
  induction E with
  | nil =>
    intro cs hsp hwL hlen hs0
    rw [copyLoop_nil]
    by_cases hm : 0 < min (data.length - cs.srcPos) (data.length - cs.srcPos)
    · rw [copyChunk_eq_pos _ _ _ _ _ hm]
      dsimp only
      refine ⟨rfl, Nat.le_add_right _ _, by omega, ?_, fun _ => by omega⟩
      funext p
      by_cases hp : p = cs.e.canonicalPath
      · rw [Sink.write_files, if_pos hp, if_pos hp, hp, hsp]
        congr 2
        omega
      · rw [Sink.write_files, if_neg hp, if_neg hp]
    · rw [copyChunk_eq_zero _ _ _ _ _ hm]
      have hwe : cs.e.writeOffset = data.length := by omega
      refine ⟨rfl, le_refl _, hwL, ?_, fun _ => hwe⟩
      funext p
      by_cases hp : p = cs.e.canonicalPath
      · rw [if_pos hp, Nat.sub_self, List.take_zero, hp, writeBytes_nil _ _ hlen]
      · rw [if_neg hp]
  | cons ev rest ih =>
    intro cs hsp hwL hlen hs0
    cases ev with
    | chunk n =>
      rw [copyLoop_chunk]
      by_cases hm : 0 < min n (data.length - cs.srcPos)
      · have hB1 : ((data.drop cs.srcPos).take (min n (data.length - cs.srcPos))).length =
            min n (data.length - cs.srcPos) := by
          rw [List.length_take, List.length_drop]
          omega
        have hw2 : (copyChunk data a b n cs).e.writeOffset =
            cs.e.writeOffset + min n (data.length - cs.srcPos) := by
          rw [copyChunk_eq_pos _ _ _ _ _ hm]
        have hpath2 : (copyChunk data a b n cs).e.canonicalPath = cs.e.canonicalPath :=
          copyChunk_e_path data a b n cs
        obtain ⟨ihe, ihlo, ihhi, ihfiles, ihdone⟩ :=
          ih (copyChunk data a b n cs)
            (copyChunk_align data a b n cs hsp)
            (by rw [hw2]; omega)
            (copyChunk_files_len data a b n cs hlen)
            (by rw [copyChunk_stopped]; exact hs0)
        rw [hw2] at ihlo
        refine ⟨?_, by omega, ihhi, ?_, ihdone⟩
        · rw [ihe, copyChunk_eq_pos _ _ _ _ _ hm]
        · rw [ihfiles, copyChunk_files_pos data a b n cs hm, hpath2, hw2]
          dsimp only
          funext p
          by_cases hp : p = cs.e.canonicalPath
          · rw [if_pos hp, if_pos hp, if_pos rfl]
            rw [show cs.e.writeOffset + min n (data.length - cs.srcPos) =
              cs.e.writeOffset +
                ((data.drop cs.srcPos).take (min n (data.length - cs.srcPos))).length by
              rw [hB1]]
            rw [writeBytes_append2 _ _ _ _ hlen]
            congr 1
            rw [hB1, hsp]
            rw [show (copyLoop data i a b rest (copyChunk data a b n cs)).e.writeOffset -
                cs.e.writeOffset =
              min n (data.length - cs.e.writeOffset) +
                ((copyLoop data i a b rest (copyChunk data a b n cs)).e.writeOffset -
                  (cs.e.writeOffset + min n (data.length - cs.e.writeOffset))) from by
              rw [← hsp]
              omega]
            rw [List.take_add, List.drop_drop]
          · rw [if_neg hp, if_neg hp, if_neg hp]
      · obtain ⟨ihe, ihlo, ihhi, ihfiles, ihdone⟩ :=
          ih (copyChunk data a b n cs)
            (copyChunk_align data a b n cs hsp)
            (by rw [copyChunk_eq_zero _ _ _ _ _ hm]; exact hwL)
            (by rw [copyChunk_eq_zero _ _ _ _ _ hm]; exact hlen)
            (by rw [copyChunk_stopped]; exact hs0)
        rw [copyChunk_eq_zero _ _ _ _ _ hm] at ihe ihlo ihhi ihfiles ihdone ⊢
        exact ⟨ihe, ihlo, ihhi, ihfiles, ihdone⟩
    | save lag stop =>
      rw [copyLoop_save]
      split
      · rename_i hstop
        refine ⟨?_, ?_, ?_, ?_, ?_⟩
        · rw [copySave_e]
        · rw [copySave_e]
        · rw [copySave_e]
          exact hwL
        · funext p
          by_cases hp : p = cs.e.canonicalPath
          · rw [if_pos hp, copySave_e, Nat.sub_self, List.take_zero, hp,
              writeBytes_nil _ _ hlen]
            rw [copySave_files]
          · rw [if_neg hp, copySave_files]
        · intro h
          rw [hstop] at h
          cases h
      · rename_i hstop
        obtain ⟨ihe, ihlo, ihhi, ihfiles, ihdone⟩ :=
          ih (copySave i a b lag stop cs)
            (by rw [copySave_srcPos, copySave_e]; exact hsp)
            (by rw [copySave_e]; exact hwL)
            (by rw [copySave_files, copySave_e]; exact hlen)
            (by rwa [Bool.not_eq_true] at hstop)
        rw [copySave_e] at ihe ihlo
        rw [copySave_files, copySave_e] at ihfiles
        exact ⟨ihe, ihlo, ihhi, ihfiles, ihdone⟩

theorem copyLoop_stop_offer (data : List Byte) (i a b : Nat) (E : List CopyEvent) :
    ∀ cs : CopyState, cs.srcPos = cs.e.writeOffset → cs.stopped = false →
      (copyLoop data i a b E cs).stopped = true →
      ∃ prog p,
        (copyLoop data i a b E cs).offers.getLast? = some
          { entryIndex := i, progress := prog,
            entry := some { cs.e with writeOffset := (copyLoop data i a b E cs).e.writeOffset },
            sourceCheckpoint := p } ∧
        (∀ q, p = some q → q.offset ≤ (copyLoop data i a b E cs).e.writeOffset) := by
  induction E with
  | nil =>
    intro cs hsp hs0 hres
    rw [copyLoop_nil, copyChunk_stopped, hs0] at hres
    cases hres
  | cons ev rest ih =>
    intro cs hsp hs0 hres
    cases ev with
    | chunk n =>
      rw [copyLoop_chunk] at hres ⊢
      by_cases hm : 0 < min n (data.length - cs.srcPos)
      · obtain ⟨prog, p, h1, h2⟩ := ih (copyChunk data a b n cs)
          (copyChunk_align data a b n cs hsp)
          (by rw [copyChunk_stopped]; exact hs0) hres
        rw [copyChunk_eq_pos _ _ _ _ _ hm] at h1 h2 ⊢
        exact ⟨prog, p, h1, h2⟩
      · obtain ⟨prog, p, h1, h2⟩ := ih (copyChunk data a b n cs)
          (copyChunk_align data a b n cs hsp)
          (by rw [copyChunk_stopped]; exact hs0) hres
        rw [copyChunk_eq_zero _ _ _ _ _ hm] at h1 h2 ⊢
        exact ⟨prog, p, h1, h2⟩
    | save lag stop =>
      by_cases hstop : (copySave i a b lag stop cs).stopped = true
      · rw [copyLoop_save, if_pos hstop] at hres ⊢
        refine ⟨computeProgress a b cs.e.writeOffset,
          lag.map (fun l => SourceCheckpoint.mk (cs.srcPos - l)), ?_, ?_⟩
        · rw [copySave_e, copySave_offers, List.getLast?_concat]
          rfl
        · intro q hq
          cases lag with
          | none => exact Option.noConfusion hq
          | some l =>
            have hq' : SourceCheckpoint.mk (cs.srcPos - l) = q := Option.some.inj hq
            subst hq'
            rw [copySave_e]
            dsimp only
            omega
      · rw [copyLoop_save, if_neg hstop] at hres ⊢
        obtain ⟨prog, p, h1, h2⟩ := ih (copySave i a b lag stop cs)
          (by rw [copySave_srcPos, copySave_e]; exact hsp)
          (by rwa [Bool.not_eq_true] at hstop) hres
        rw [copySave_e] at h1
        exact ⟨prog, p, h1, h2⟩

theorem driveCopy_sink (plan : RunPlan) (T i : Nat) (zf : ZipFile) (e : Entry)
    (srcPos : Nat) (st : RState) :
    (driveCopy plan T i zf e srcPos st).sink =
      (copyLoop zf.data i st.doneBytes T (plan.getD i [])
        ⟨st.sink, e, srcPos, st.chk.progress, st.chk.sourceCheckpoint, st.reports, st.offers,
          st.progressLog, false⟩).sink := rfl

theorem driveCopy_offers_eq (plan : RunPlan) (T i : Nat) (zf : ZipFile) (e : Entry)
    (srcPos : Nat) (st : RState) :
    (driveCopy plan T i zf e srcPos st).offers =
      (copyLoop zf.data i st.doneBytes T (plan.getD i [])
        ⟨st.sink, e, srcPos, st.chk.progress, st.chk.sourceCheckpoint, st.reports, st.offers,
          st.progressLog, false⟩).offers := rfl

theorem driveCopy_chk_source (plan : RunPlan) (T i : Nat) (zf : ZipFile) (e : Entry)
    (srcPos : Nat) (st : RState) :
    (driveCopy plan T i zf e srcPos st).chk.sourceCheckpoint = none := rfl

theorem driveCopy_sim (plan : RunPlan) (T i : Nat) (A : List ZipFile)
    (g : String → List Byte) (zf : ZipFile) (e : Entry) (w : Nat) (st : RState)
    (hpath : e.canonicalPath = zf.name)
    (hw : e.writeOffset = w)
    (hwL : w ≤ zf.data.length)
    (hfiles : st.sink.files = midFiles A g i zf w) :
    ∃ w', w ≤ w' ∧ w' ≤ zf.data.length ∧
      (driveCopy plan T i zf e w st).sink.files = midFiles A g i zf w' ∧
      ((driveCopy plan T i zf e w st).stopped = false → w' = zf.data.length) ∧
      ((driveCopy plan T i zf e w st).stopped = true →
        ∃ prog p,
          (driveCopy plan T i zf e w st).offers.getLast? = some
            { entryIndex := i, progress := prog,
              entry := some { e with writeOffset := w' }, sourceCheckpoint := p } ∧
          ∀ q, p = some q → q.offset ≤ w') := by
  have hlen : e.writeOffset ≤ (st.sink.files e.canonicalPath).length := by
    rw [hfiles, hpath, hw]
    unfold midFiles
    rw [if_pos rfl, writeBytes_length, List.length_take]
    omega
  simp only [driveCopy_sink, driveCopy_offers_eq, driveCopy_stopped]
  obtain ⟨-, hlo, hhi, hfs, hdone⟩ :=
    copyLoop_aligned zf.data i st.doneBytes T (plan.getD i [])
      ⟨st.sink, e, w, st.chk.progress, st.chk.sourceCheckpoint, st.reports, st.offers,
        st.progressLog, false⟩
      (show w = e.writeOffset from hw.symm)
      (show e.writeOffset ≤ zf.data.length from hw ▸ hwL)
      hlen rfl
  dsimp only at hlo hhi hfs hdone
  rw [hw] at hlo
  refine ⟨(copyLoop zf.data i st.doneBytes T (plan.getD i [])
      ⟨st.sink, e, w, st.chk.progress, st.chk.sourceCheckpoint, st.reports, st.offers,
        st.progressLog, false⟩).e.writeOffset, hlo, hhi, ?_, hdone, ?_⟩
  · rw [hfs]
    funext p
    dsimp only
    rw [hpath, hw, hfiles]
    unfold midFiles
    by_cases hp : p = zf.name
    · subst hp
      rw [if_pos rfl, if_pos rfl, if_pos rfl]
      rw [writeBytes_chunk_glue _ _ _ _ (by omega)]
      rw [show w + ((copyLoop zf.data i st.doneBytes T (plan.getD i [])
        ⟨st.sink, e, w, st.chk.progress, st.chk.sourceCheckpoint, st.reports, st.offers,
          st.progressLog, false⟩).e.writeOffset - w) = (copyLoop zf.data i st.doneBytes T
            (plan.getD i []) ⟨st.sink, e, w, st.chk.progress, st.chk.sourceCheckpoint,
              st.reports, st.offers, st.progressLog, false⟩).e.writeOffset by omega]
    · rw [if_neg hp, if_neg hp, if_neg hp]
  · intro hstop
    obtain ⟨prog, p, h1, h2⟩ :=
      copyLoop_stop_offer zf.data i st.doneBytes T (plan.getD i [])
        ⟨st.sink, e, w, st.chk.progress, st.chk.sourceCheckpoint, st.reports, st.offers,
          st.progressLog, false⟩
        (show w = e.writeOffset from hw.symm) rfl hstop
    exact ⟨prog, p, h1, h2⟩

theorem driveCopy_sim2 (plan : RunPlan) (T i : Nat) (A : List ZipFile)
    (g : String → List Byte) (zf : ZipFile) (e : Entry) (w srcPos : Nat) (st : RState)
    (hpath : e.canonicalPath = zf.name)
    (hw : e.writeOffset = w)
    (hwL : w ≤ zf.data.length)
    (hfiles : st.sink.files = midFiles A g i zf w)
    (hsp : srcPos = w) :
    ∃ w', w ≤ w' ∧ w' ≤ zf.data.length ∧
      (driveCopy plan T i zf e srcPos st).sink.files = midFiles A g i zf w' ∧
      ((driveCopy plan T i zf e srcPos st).stopped = false → w' = zf.data.length) ∧
      ((driveCopy plan T i zf e srcPos st).stopped = true →
        ∃ prog p,
          (driveCopy plan T i zf e srcPos st).offers.getLast? = some
            { entryIndex := i, progress := prog,
              entry := some { e with writeOffset := w' }, sourceCheckpoint := p } ∧
          ∀ q, p = some q → q.offset ≤ w') := by
  subst hsp
  exact driveCopy_sim plan T i A g zf e srcPos st hpath hw hwL hfiles

theorem resumableEntry_sim (plan : RunPlan) (T i : Nat) (A : List ZipFile)
    (g : String → List Byte) (zf : ZipFile) (e : Entry) (w : Nat) (st : RState)
    (hpath : e.canonicalPath = zf.name) (hw : e.writeOffset = w)
    (hwL : w ≤ zf.data.length)
    (hsrcbd : ∀ q, st.chk.sourceCheckpoint = some q → q.offset ≤ w)
    (hfiles : st.sink.files = midFiles A g i zf w) :
    ∃ w', w ≤ w' ∧ w' ≤ zf.data.length ∧
      (resumableEntry plan T i zf e st).error = st.error ∧
      (resumableEntry plan T i zf e st).chk.entry = none ∧
      (resumableEntry plan T i zf e st).chk.sourceCheckpoint = none ∧
      (resumableEntry plan T i zf e st).sink.files = midFiles A g i zf w' ∧
      ((resumableEntry plan T i zf e st).stopped = false → w' = zf.data.length) ∧
      ((resumableEntry plan T i zf e st).stopped = true →
        ∃ prog p,
          (resumableEntry plan T i zf e st).offers.getLast? = some
            { entryIndex := i, progress := prog,
              entry := some { e with writeOffset := w' }, sourceCheckpoint := p } ∧
          ∀ q, p = some q → q.offset ≤ w') := by
  have hO : (st.chk.sourceCheckpoint.map SourceCheckpoint.offset).getD 0 ≤ w := by
    cases hq : st.chk.sourceCheckpoint with
    | none => exact Nat.zero_le w
    | some q => exact hsrcbd q hq
  by_cases hlt : (st.chk.sourceCheckpoint.map SourceCheckpoint.offset).getD 0 < e.writeOffset
  · have hne : ¬ (zf.data.length - (st.chk.sourceCheckpoint.map SourceCheckpoint.offset).getD 0 <
        e.writeOffset - (st.chk.sourceCheckpoint.map SourceCheckpoint.offset).getD 0) := by
      rw [hw] at hlt ⊢
      omega
    rw [resumableEntry_eq_discard _ _ _ _ _ _ hlt hne]
    obtain ⟨w', ha, hb, hc, hd, hh⟩ :=
      driveCopy_sim2 plan T i A g zf e w e.writeOffset
        { st with discards := st.discards ++ [(e.canonicalPath,
            e.writeOffset - (st.chk.sourceCheckpoint.map SourceCheckpoint.offset).getD 0)] }
        hpath hw hwL hfiles hw
    refine ⟨w', ha, hb, ?_, ?_, ?_, hc, hd, hh⟩
    · rw [driveCopy_error]
    · rw [driveCopy_chk_entry]
    · rw [driveCopy_chk_source]
  · rw [resumableEntry_eq_ahead _ _ _ _ _ _ hlt]
    obtain ⟨w', ha, hb, hc, hd, hh⟩ :=
      driveCopy_sim2 plan T i A g zf e w
        ((st.chk.sourceCheckpoint.map SourceCheckpoint.offset).getD 0) st
        hpath hw hwL hfiles (by rw [hw] at hlt; omega)
    refine ⟨w', ha, hb, ?_, ?_, ?_, hc, hd, hh⟩
    · rw [driveCopy_error]
    · rw [driveCopy_chk_entry]
    · rw [driveCopy_chk_source]

theorem processEntry_clean_sim (plan : RunPlan) (T i : Nat) (A : List ZipFile)
    (g : String → List Byte) (zf : ZipFile) (st : RState)
    (hA : A.get? i = some zf)
    (hentry : st.chk.entry = none)
    (hsrc : st.chk.sourceCheckpoint = none)
    (hstop0 : st.stopped = false)
    (herr0 : st.error = false)
    (hfiles : st.sink.files = boundaryFiles A g i) :
    (processEntry plan T i zf st).error = false ∧
    (processEntry plan T i zf st).chk.entry = none ∧
    (processEntry plan T i zf st).chk.sourceCheckpoint = none ∧
    ((processEntry plan T i zf st).stopped = false →
      (processEntry plan T i zf st).sink.files = boundaryFiles A g (i + 1)) ∧
    ((processEntry plan T i zf st).stopped = true →
      ∃ c', (processEntry plan T i zf st).offers.getLast? = some c' ∧
        ValidChk A g c' (processEntry plan T i zf st).sink.files) := by
  have he : st.chk.entry.getD (zipFileEntry zf) = zipFileEntry zf := by rw [hentry]; rfl
  rcases hk : (zipFileEntry zf).kind with _ | _ | _
  · rw [processEntry_eq_dir _ _ _ _ _ (by rw [he]; exact hk)]
    refine ⟨?_, ?_, ?_, ?_, ?_⟩
    · rw [finishEntry_error]
      exact herr0
    · rw [finishEntry_chk]
    · rw [finishEntry_chk]
    · intro _
      rw [finishEntry_sink]
      dsimp only
      rw [show (st.sink.mkdir (st.chk.entry.getD (zipFileEntry zf))).files = st.sink.files
        from rfl]
      rw [hfiles, boundaryFiles_succ A g i zf hA]
      unfold applyEntryData
      rw [if_neg (by rw [hk]; intro hcon; cases hcon)]
    · intro h
      rw [finishEntry_stopped] at h
      have h' : st.stopped = true := h
      rw [hstop0] at h'
      cases h'
  · rw [processEntry_eq_symlink _ _ _ _ _ (by rw [he]; exact hk)]
    refine ⟨?_, ?_, ?_, ?_, ?_⟩
    · rw [finishEntry_error]
      exact herr0
    · rw [finishEntry_chk]
    · rw [finishEntry_chk]
    · intro _
      rw [finishEntry_sink]
      dsimp only
      rw [show (st.sink.symlinkTo (st.chk.entry.getD (zipFileEntry zf)) zf.data).files =
        st.sink.files from rfl]
      rw [hfiles, boundaryFiles_succ A g i zf hA]
      unfold applyEntryData
      rw [if_neg (by rw [hk]; intro hcon; cases hcon)]
    · intro h
      rw [finishEntry_stopped] at h
      have h' : st.stopped = true := h
      rw [hstop0] at h'
      cases h'
  · rcases hm : zf.method with _ | _ | _
    case file.other =>
      rw [processEntry_eq_other _ _ _ _ _ (by rw [he]; exact hk) hm, he]
      refine ⟨?_, ?_, ?_, ?_, ?_⟩
      · rw [finishEntry_error]
        exact herr0
      · rw [finishEntry_chk]
      · rw [finishEntry_chk]
      · intro _
        rw [finishEntry_sink]
        dsimp only
        rw [boundaryFiles_succ A g i zf hA]
        unfold applyEntryData
        rw [if_pos hk]
        funext p
        rw [Sink.write_files,
          show (zipFileEntry zf).canonicalPath = zf.name from rfl, hfiles]
      · intro h
        rw [finishEntry_stopped] at h
        have h' : st.stopped = true := h
        rw [hstop0] at h'
        cases h'
    case file.store =>
      rw [processEntry_eq_resumable _ _ _ _ _ (by rw [he]; exact hk) (Or.inl hm), he]
      set st2 : RState :=
        { st with
          chk := { st.chk with entryIndex := i, entry := some (zipFileEntry zf) }
          processed := st.processed ++ [i] } with hst2
      have h1 : st2.chk.sourceCheckpoint = none := by rw [hst2]; exact hsrc
      have h2 : st2.sink.files = midFiles A g i zf 0 := by
        rw [hst2, midFiles_zero]
        exact hfiles
      obtain ⟨w', ha, hb, herr', hce, hcs, hfs, hns, hs⟩ :=
        resumableEntry_sim plan T i A g zf (zipFileEntry zf) 0 st2 rfl rfl (Nat.zero_le _)
          (by rw [h1]; intro q hq; cases hq) h2
      refine ⟨?_, hce, hcs, ?_, ?_⟩
      · rw [herr', hst2]
        exact herr0
      · intro h
        rw [hfs, hns h, midFiles_complete A g i zf hA hk]
      · intro h
        obtain ⟨prog, p, hoff, hbd⟩ := hs h
        refine ⟨_, hoff, zf, w', hA, hk, Or.inl hm, rfl, hb, hbd, hfs⟩
    case file.deflate =>
      rw [processEntry_eq_resumable _ _ _ _ _ (by rw [he]; exact hk) (Or.inr hm), he]
      set st2 : RState :=
        { st with
          chk := { st.chk with entryIndex := i, entry := some (zipFileEntry zf) }
          processed := st.processed ++ [i] } with hst2
      have h1 : st2.chk.sourceCheckpoint = none := by rw [hst2]; exact hsrc
      have h2 : st2.sink.files = midFiles A g i zf 0 := by
        rw [hst2, midFiles_zero]
        exact hfiles
      obtain ⟨w', ha, hb, herr', hce, hcs, hfs, hns, hs⟩ :=
        resumableEntry_sim plan T i A g zf (zipFileEntry zf) 0 st2 rfl rfl (Nat.zero_le _)
          (by rw [h1]; intro q hq; cases hq) h2
      refine ⟨?_, hce, hcs, ?_, ?_⟩
      · rw [herr', hst2]
        exact herr0
      · intro h
        rw [hfs, hns h, midFiles_complete A g i zf hA hk]
      · intro h
        obtain ⟨prog, p, hoff, hbd⟩ := hs h
        refine ⟨_, hoff, zf, w', hA, hk, Or.inr hm, rfl, hb, hbd, hfs⟩

theorem processEntry_mid_sim (plan : RunPlan) (T i : Nat) (A : List ZipFile)
    (g : String → List Byte) (zf : ZipFile) (w : Nat) (st : RState)
    (hA : A.get? i = some zf)
    (hk : (zipFileEntry zf).kind = EntryKind.file)
    (hm : zf.method = ZipMethod.store ∨ zf.method = ZipMethod.deflate)
    (hentry : st.chk.entry = some { zipFileEntry zf with writeOffset := w })
    (hwL : w ≤ zf.data.length)
    (hsrcbd : ∀ q, st.chk.sourceCheckpoint = some q → q.offset ≤ w)
    (herr0 : st.error = false)
    (hfiles : st.sink.files = midFiles A g i zf w) :
    (processEntry plan T i zf st).error = false ∧
    (processEntry plan T i zf st).chk.entry = none ∧
    (processEntry plan T i zf st).chk.sourceCheckpoint = none ∧
    ((processEntry plan T i zf st).stopped = false →
      (processEntry plan T i zf st).sink.files = boundaryFiles A g (i + 1)) ∧
    ((processEntry plan T i zf st).stopped = true →
      ∃ c', (processEntry plan T i zf st).offers.getLast? = some c' ∧
        ValidChk A g c' (processEntry plan T i zf st).sink.files) := by
  have he : st.chk.entry.getD (zipFileEntry zf) = { zipFileEntry zf with writeOffset := w } := by
    rw [hentry]
    rfl
  rw [processEntry_eq_resumable _ _ _ _ _ (by rw [he]; exact hk) hm, he]
  set st2 : RState :=
    { st with
      chk :=
        { st.chk with
          entryIndex := i
          entry := some { zipFileEntry zf with writeOffset := w } }
      processed := st.processed ++ [i] } with hst2
  have h1 : ∀ q, st2.chk.sourceCheckpoint = some q → q.offset ≤ w := by
    rw [hst2]
    exact hsrcbd
  have h2 : st2.sink.files = midFiles A g i zf w := by
    rw [hst2]
    exact hfiles
  obtain ⟨w', ha, hb, herr', hce, hcs, hfs, hns, hs⟩ :=
    resumableEntry_sim plan T i A g zf { zipFileEntry zf with writeOffset := w } w st2
      rfl rfl hwL h1 h2
  refine ⟨?_, hce, hcs, ?_, ?_⟩
  · rw [herr', hst2]
    exact herr0
  · intro h
    rw [hfs, hns h, midFiles_complete A g i zf hA hk]
  · intro h
    obtain ⟨prog, p, hoff, hbd⟩ := hs h
    refine ⟨_, hoff, zf, w', hA, hk, hm, rfl, hb, hbd, hfs⟩

theorem entryLoop_sim (plan : RunPlan) (T : Nat) (A : List ZipFile) (g : String → List Byte) :
    ∀ (l : List ZipFile) (i : Nat) (st : RState), l = A.drop i →
      st.sink.files = boundaryFiles A g i →
      st.chk.entry = none → st.chk.sourceCheckpoint = none →
      st.stopped = false → st.error = false →
      (entryLoop plan T i l st).error = false ∧
      ((entryLoop plan T i l st).stopped = false →
        (entryLoop plan T i l st).sink.files = idealFiles A g) ∧
      ((entryLoop plan T i l st).stopped = true →
        ∃ c', (entryLoop plan T i l st).offers.getLast? = some c' ∧
          ValidChk A g c' (entryLoop plan T i l st).sink.files) := by
  intro l
  induction l with
  | nil =>
    intro i st hl hfiles hentry hsrc hstop herr
    rw [entryLoop_nil]
    refine ⟨herr, ?_, ?_⟩
    · intro _
      rw [hfiles]
      exact boundaryFiles_stable A g i (List.drop_eq_nil_iff.mp hl.symm)
    · intro h
      rw [hstop] at h
      cases h
  | cons zf rest ih =>
    intro i st hl hfiles hentry hsrc hstop herr
    rw [entryLoop_cons, if_neg (by rw [hstop, herr]; decide)]
    have hA : A.get? i = some zf := by
      rw [List.get?_eq_getElem?, ← List.head?_drop, ← hl]
      rfl
    have hrest : rest = A.drop (i + 1) := by
      have h1 := List.drop_drop 1 i A
      rw [← hl] at h1
      exact h1
    obtain ⟨herr1, hce1, hcs1, hns1, hs1⟩ :=
      processEntry_clean_sim plan T i A g zf st hA hentry hsrc hstop herr hfiles
    by_cases hst1 : (processEntry plan T i zf st).stopped = true
    · rw [entryLoop_flagged _ _ _ _ _ (by rw [hst1]; rfl)]
      refine ⟨herr1, ?_, fun _ => hs1 hst1⟩
      intro h
      rw [hst1] at h
      cases h
    · have hst1' : (processEntry plan T i zf st).stopped = false := by
        rwa [Bool.not_eq_true] at hst1
      exact ih (i + 1) (processEntry plan T i zf st) hrest (hns1 hst1') hce1 hcs1 hst1' herr1

theorem Resume_fst_stop (ze : ZipExtractor) (c : Option ExtractorCheckpoint) (s : Sink)
    (plan : RunPlan) (herr : (resumeFinal ze c s plan).error = false)
    (hstop : (resumeFinal ze c s plan).stopped = true) :
    (ze.Resume c s plan).1 = ResumeOutcome.stop := by
  unfold ZipExtractor.Resume
  dsimp only
  rw [if_neg (by rw [herr]; decide), if_pos hstop]

theorem Resume_fst_ok (ze : ZipExtractor) (c : Option ExtractorCheckpoint) (s : Sink)
    (plan : RunPlan) (herr : (resumeFinal ze c s plan).error = false)
    (hstop : (resumeFinal ze c s plan).stopped = false) :
    (ze.Resume c s plan).1 = ResumeOutcome.ok { entries := ze.files.map zipFileEntry } := by
  unfold ZipExtractor.Resume
  dsimp only
  rw [if_neg (by rw [herr]; decide), if_neg (by rw [hstop]; decide)]

theorem resumeFinal_fresh_sim (ze : ZipExtractor) (s : Sink) (plan : RunPlan) :
    (resumeFinal ze none s plan).error = false ∧
    ((resumeFinal ze none s plan).stopped = false →
      (resumeFinal ze none s plan).sink.files = idealFiles ze.files s.files) ∧
    ((resumeFinal ze none s plan).stopped = true →
      ∃ c', (resumeFinal ze none s plan).offers.getLast? = some c' ∧
        ValidChk ze.files s.files c' (resumeFinal ze none s plan).sink.files) := by
  have hfiles0 : (resumeStart ze none s).sink.files = boundaryFiles ze.files s.files 0 := by
    rw [show (resumeStart ze none s).sink = preallocAll ze.files s from rfl,
      preallocAll_files, boundaryFiles_zero]
  have heq : resumeFinal ze none s plan =
      entryLoop plan (totalBytesOf ze.files) 0 ze.files (resumeStart ze none s) := rfl
  rw [heq]
  exact entryLoop_sim plan (totalBytesOf ze.files) ze.files s.files ze.files 0
    (resumeStart ze none s) rfl hfiles0 rfl rfl rfl rfl

theorem resumeFinal_valid_sim (ze : ZipExtractor) (g : String → List Byte)
    (c : ExtractorCheckpoint) (s : Sink) (plan : RunPlan)
    (hv : ValidChk ze.files g c s.files) :
    (resumeFinal ze (some c) s plan).error = false ∧
    ((resumeFinal ze (some c) s plan).stopped = false →
      (resumeFinal ze (some c) s plan).sink.files = idealFiles ze.files g) ∧
    ((resumeFinal ze (some c) s plan).stopped = true →
      ∃ c', (resumeFinal ze (some c) s plan).offers.getLast? = some c' ∧
        ValidChk ze.files g c' (resumeFinal ze (some c) s plan).sink.files) := by
  obtain ⟨zf, w, hA, hk, hm, hentry, hwL, hbd, hf⟩ := hv
  obtain ⟨hlt, hget⟩ := List.get?_eq_some.mp hA
  have hdropc : ze.files.drop c.entryIndex = zf :: ze.files.drop (c.entryIndex + 1) := by
    rw [List.drop_eq_getElem_cons hlt]
    congr 1
  have heq : resumeFinal ze (some c) s plan =
      entryLoop plan (totalBytesOf ze.files) c.entryIndex (ze.files.drop c.entryIndex)
        (resumeStart ze (some c) s) := rfl
  rw [heq, hdropc, entryLoop_cons,
    if_neg (by
      rw [show (resumeStart ze (some c) s).stopped = false from rfl,
        show (resumeStart ze (some c) s).error = false from rfl]
      decide)]
  obtain ⟨herr1, hce1, hcs1, hns1, hs1⟩ :=
    processEntry_mid_sim plan (totalBytesOf ze.files) c.entryIndex ze.files g zf w
      (resumeStart ze (some c) s) hA hk hm hentry hwL hbd rfl hf
  by_cases hst1 : (processEntry plan (totalBytesOf ze.files) c.entryIndex zf
      (resumeStart ze (some c) s)).stopped = true
  · rw [entryLoop_flagged _ _ _ _ _ (by rw [hst1]; rfl)]
    refine ⟨herr1, ?_, fun _ => hs1 hst1⟩
    intro h
    rw [hst1] at h
    cases h
  · have hst1' : (processEntry plan (totalBytesOf ze.files) c.entryIndex zf
        (resumeStart ze (some c) s)).stopped = false := by
      rwa [Bool.not_eq_true] at hst1
    exact entryLoop_sim plan (totalBytesOf ze.files) ze.files g
      (ze.files.drop (c.entryIndex + 1)) (c.entryIndex + 1) _ rfl (hns1 hst1') hce1 hcs1
      hst1' herr1

theorem copyLoop_nilplan_stopped (data : List Byte) (i a b : Nat) (cs : CopyState) :
    (copyLoop data i a b [] cs).stopped = cs.stopped := by
  rw [copyLoop_nil, copyChunk_stopped]

theorem processEntry_nilplan_stopped (T i : Nat) (zf : ZipFile) (st : RState)
    (h : st.stopped = false) :
    (processEntry ([] : RunPlan) T i zf st).stopped = false := by
  rcases hk : (st.chk.entry.getD (zipFileEntry zf)).kind with _ | _ | _
  · rw [processEntry_eq_dir _ _ _ _ _ hk, finishEntry_stopped]
    exact h
  · rw [processEntry_eq_symlink _ _ _ _ _ hk, finishEntry_stopped]
    exact h
  · rcases hm : zf.method with _ | _ | _
    case file.other =>
      rw [processEntry_eq_other _ _ _ _ _ hk hm, finishEntry_stopped]
      exact h
    all_goals
      first
      | rw [processEntry_eq_resumable _ _ _ _ _ hk (Or.inl hm)]
      | rw [processEntry_eq_resumable _ _ _ _ _ hk (Or.inr hm)]
    all_goals
      rcases resumableEntry_cases ([] : RunPlan) T i zf (st.chk.entry.getD (zipFileEntry zf)) _
        with hcase | ⟨srcPos, st', -, -, -, -, -, -, heqq⟩
    all_goals
      first
      | (rw [hcase]; exact h)
      | (rw [heqq, driveCopy_stopped,
          show List.getD ([] : RunPlan) i ([] : EntryPlan) = ([] : EntryPlan) from rfl,
          copyLoop_nilplan_stopped])

theorem entryLoop_nilplan_stopped (T : Nat) (l : List ZipFile) :
    ∀ (i : Nat) (st : RState), st.stopped = false →
      (entryLoop ([] : RunPlan) T i l st).stopped = false := by
  induction l with
  | nil =>
    intro i st h
    rw [entryLoop_nil]
    exact h
  | cons zf rest ih =>
    intro i st h
    rw [entryLoop_cons]
    split
    · exact h
    · exact ih (i + 1) _ (processEntry_nilplan_stopped T i zf st h)

theorem resumeFinal_nilplan_stopped (ze : ZipExtractor) (c : Option ExtractorCheckpoint)
    (s : Sink) : (resumeFinal ze c s []).stopped = false := by
  unfold resumeFinal
  exact entryLoop_nilplan_stopped _ _ _ _ rfl

theorem sessions_cons_done (ze : ZipExtractor) (plan : RunPlan) (rest : List RunPlan)
    (s : Sink) (c : Option ExtractorCheckpoint) :
    sessions ze (plan :: rest) s c true = (s, c, true) := rfl

theorem sessions_cons_stop (ze : ZipExtractor) (plan : RunPlan) (rest : List RunPlan)
    (s : Sink) (c : Option ExtractorCheckpoint)
    (h : (ze.Resume c s plan).1 = ResumeOutcome.stop) :
    sessions ze (plan :: rest) s c false =
      sessions ze rest (ze.Resume c s plan).2.sink
        (ze.Resume c s plan).2.offers.getLast? false := by
  rw [show sessions ze (plan :: rest) s c false =
    (match (ze.Resume c s plan).1 with
     | ResumeOutcome.stop => sessions ze rest (ze.Resume c s plan).2.sink
         (ze.Resume c s plan).2.offers.getLast? false
     | _ => sessions ze rest (ze.Resume c s plan).2.sink c true) from rfl, h]

theorem sessions_cons_ok (ze : ZipExtractor) (plan : RunPlan) (rest : List RunPlan)
    (s : Sink) (c : Option ExtractorCheckpoint) (res : ExtractorResult)
    (h : (ze.Resume c s plan).1 = ResumeOutcome.ok res) :
    sessions ze (plan :: rest) s c false =
      sessions ze rest (ze.Resume c s plan).2.sink c true := by
  rw [show sessions ze (plan :: rest) s c false =
    (match (ze.Resume c s plan).1 with
     | ResumeOutcome.stop => sessions ze rest (ze.Resume c s plan).2.sink
         (ze.Resume c s plan).2.offers.getLast? false
     | _ => sessions ze rest (ze.Resume c s plan).2.sink c true) from rfl, h]

theorem sessions_sim (ze : ZipExtractor) (g : String → List Byte) :
    ∀ (plans : List RunPlan) (s : Sink) (c : Option ExtractorCheckpoint) (done : Bool),
      (done = true → s.files = idealFiles ze.files g) →
      (done = false →
        (c = none ∧ s.files = g) ∨
        (∃ c', c = some c' ∧ ValidChk ze.files g c' s.files)) →
      ((sessions ze plans s c done).2.2 = true →
        (sessions ze plans s c done).1.files = idealFiles ze.files g) ∧
      ((sessions ze plans s c done).2.2 = false →
        ((sessions ze plans s c done).2.1 = none ∧
          (sessions ze plans s c done).1.files = g) ∨
        (∃ c', (sessions ze plans s c done).2.1 = some c' ∧
          ValidChk ze.files g c' (sessions ze plans s c done).1.files)) := by
  intro plans
  induction plans with
  | nil =>
    intro s c done hdone hopen
    exact ⟨hdone, hopen⟩
  | cons plan rest ih =>
    intro s c done hdone hopen
    cases done with
    | true =>
      rw [sessions_cons_done]
      exact ⟨fun _ => hdone rfl, fun h => by cases h⟩
    | false =>
      rcases hopen rfl with ⟨hc, hfiles⟩ | ⟨c0, hc, hv⟩
      · subst hc
        obtain ⟨herr, hok, hstp⟩ := resumeFinal_fresh_sim ze s plan
        by_cases hst : (resumeFinal ze none s plan).stopped = true
        · obtain ⟨c', hlast, hvc⟩ := hstp hst
          rw [sessions_cons_stop ze plan rest s none (Resume_fst_stop ze none s plan herr hst)]
          refine ih (ze.Resume none s plan).2.sink (ze.Resume none s plan).2.offers.getLast?
            false (fun h => by cases h) ?_
          intro _
          refine Or.inr ⟨c', ?_, ?_⟩
          · rw [Resume_snd]
            exact hlast
          · rw [Resume_snd, ← hfiles]
            exact hvc
        · have hst' : (resumeFinal ze none s plan).stopped = false := by
            rwa [Bool.not_eq_true] at hst
          rw [sessions_cons_ok ze plan rest s none _ (Resume_fst_ok ze none s plan herr hst')]
          refine ih (ze.Resume none s plan).2.sink none true ?_ (fun h => by cases h)
          intro _
          rw [Resume_snd, ← hfiles]
          exact hok hst'
      · subst hc
        obtain ⟨herr, hok, hstp⟩ := resumeFinal_valid_sim ze g c0 s plan hv
        by_cases hst : (resumeFinal ze (some c0) s plan).stopped = true
        · obtain ⟨c', hlast, hvc⟩ := hstp hst
          rw [sessions_cons_stop ze plan rest s (some c0)
            (Resume_fst_stop ze (some c0) s plan herr hst)]
          refine ih (ze.Resume (some c0) s plan).2.sink
            (ze.Resume (some c0) s plan).2.offers.getLast? false (fun h => by cases h) ?_
          intro _
          refine Or.inr ⟨c', ?_, ?_⟩
          · rw [Resume_snd]
            exact hlast
          · rw [Resume_snd]
            exact hvc
        · have hst' : (resumeFinal ze (some c0) s plan).stopped = false := by
            rwa [Bool.not_eq_true] at hst
          rw [sessions_cons_ok ze plan rest s (some c0) _
            (Resume_fst_ok ze (some c0) s plan herr hst')]
          refine ih (ze.Resume (some c0) s plan).2.sink (some c0) true ?_ (fun h => by cases h)
          intro _
          rw [Resume_snd]
          exact hok hst'

/-- C1: round-trip integrity.  For any archive, base sink contents and any
sequence of per-run copy schedules (each scheduled run that receives a stop
verdict hands its last offered checkpoint and its sink to the next run, per
`sessions`), the multi-session protocol followed by a final event-free run
to completion leaves the destination file tree byte-identical to the one
produced by a single uninterrupted `Resume` with a null checkpoint. -/
theorem C1_round_trip (ze : ZipExtractor) (s : Sink) (plans : List RunPlan) :
    (roundTrip ze s plans).files = ((ze.Resume none s []).2).sink.files := by
  obtain ⟨herrF, hokF, -⟩ := resumeFinal_fresh_sim ze s []
  have hR : ((ze.Resume none s []).2).sink.files = idealFiles ze.files s.files := by
    rw [Resume_snd]
    exact hokF (resumeFinal_nilplan_stopped ze none s)
  rw [hR]
  unfold roundTrip
  obtain ⟨hdone, hopen⟩ := sessions_sim ze s.files plans s none false (fun h => by cases h)
    (fun _ => Or.inl ⟨rfl, rfl⟩)
  dsimp only
  by_cases hd : (sessions ze plans s none false).2.2 = true
  · rw [if_pos hd]
    exact hdone hd
  · have hd' : (sessions ze plans s none false).2.2 = false := by
      rwa [Bool.not_eq_true] at hd
    rw [if_neg hd]
    rcases hopen hd' with ⟨hc, hf⟩ | ⟨c', hc, hv⟩
    · rw [hc]
      obtain ⟨herr2, hok2, -⟩ := resumeFinal_fresh_sim ze (sessions ze plans s none false).1 []
      rw [Resume_snd, hok2 (resumeFinal_nilplan_stopped _ _ _), hf]
    · rw [hc]
      obtain ⟨herr2, hok2, -⟩ :=
        resumeFinal_valid_sim ze s.files c' (sessions ze plans s none false).1 [] hv
      rw [Resume_snd]
      exact hok2 (resumeFinal_nilplan_stopped _ _ _)
